import Mathlib

/-!
Verification of the PhotoMosaic tile-matching and placement engine.

The definitions below are a shallow embedding of `src/mosaic.py` and
`src/catalog.py`.  Python integers are modelled by `Int`/`Nat`, Python
floats by exact rationals (`Rat`, for the layout arithmetic, where every
intermediate value is a small dyadic-free rational) or by real numbers
(`Real`, for the Euclidean colour distances computed with `math.sqrt`).
Python `int(...)` truncation and banker's `round(...)` are modelled by
`pyint` and `pyround`.  Code that can raise (failed `assert`, division by
zero, early `return`) is modelled with `Option`: `none` is an aborted run.
-/

/-- Python `int(q)`: truncation toward zero. -/
def pyint (q : ℚ) : ℤ := if q < 0 then -⌊-q⌋ else ⌊q⌋

/-- Python `round(q)`: round half to even (banker's rounding). -/
def pyround (q : ℚ) : ℤ :=
  if q - ⌊q⌋ < 1/2 then ⌊q⌋
  else if 1/2 < q - ⌊q⌋ then ⌊q⌋ + 1
  else if ⌊q⌋ % 2 = 0 then ⌊q⌋ else ⌊q⌋ + 1

theorem pyint_of_nonneg (q : ℚ) (h : 0 ≤ q) : pyint q = ⌊q⌋ := by
  unfold pyint
  rw [if_neg (not_lt.mpr h)]

theorem pyint_intCast (n : ℤ) : pyint (n : ℚ) = n := by
  unfold pyint
  split
  · rw [← Int.cast_neg, Int.floor_intCast]; omega
  · rw [Int.floor_intCast]

theorem pyround_le (q : ℚ) : (pyround q : ℚ) ≤ q + 1/2 := by
  have hfl : (⌊q⌋ : ℚ) ≤ q := Int.floor_le q
  have hfl2 : q < ⌊q⌋ + 1 := Int.lt_floor_add_one q
  unfold pyround
  split
  · linarith
  · split
    · push_cast; linarith
    · split
      · linarith
      · push_cast
        rename_i h1 h2 _
        have : q - ⌊q⌋ = 1/2 := le_antisymm (not_lt.mp h2) (not_lt.mp h1)
        linarith

theorem le_pyround (q : ℚ) : q - 1/2 ≤ (pyround q : ℚ) := by
  have hfl : (⌊q⌋ : ℚ) ≤ q := Int.floor_le q
  have hfl2 : q < ⌊q⌋ + 1 := Int.lt_floor_add_one q
  unfold pyround
  split
  · rename_i h; linarith
  · split
    · push_cast; linarith
    · split
      · rename_i h1 h2 _
        have : q - ⌊q⌋ = 1/2 := le_antisymm (not_lt.mp h2) (not_lt.mp h1)
        linarith
      · push_cast; linarith

theorem pyround_intCast (n : ℤ) : pyround (n : ℚ) = n := by
  unfold pyround
  rw [Int.floor_intCast]
  norm_num

/-! ## The spiral walk (`placeSpiral`, `src/mosaic.py` lines 298-319)

The walk keeps a position `(x, y)` and a direction `(dx, dy)`, starting at
`(0, 0)` with direction `(0, -1)`.  Each loop iteration first tests the
current position against the grid rectangle, then rotates the direction
when `x == y or (x < 0 and x == -y) or (x > 0 and x == 1 - y)`, then moves
one step.  -/

/-- State of the spiral walk: position and direction. -/
structure SpState where
  x : ℤ
  y : ℤ
  dx : ℤ
  dy : ℤ
  deriving DecidableEq, Repr

/-- The rotation test of the spiral walk (line 316 of `mosaic.py`). -/
def rotCond (x y : ℤ) : Prop := x = y ∨ (x < 0 ∧ x = -y) ∨ (0 < x ∧ x = 1 - y)

instance (x y : ℤ) : Decidable (rotCond x y) := by
  unfold rotCond; infer_instance

/-- One iteration of the spiral loop: rotate if needed, then move. -/
def spStep (s : SpState) : SpState :=
  if rotCond s.x s.y then
    { x := s.x - s.dy, y := s.y + s.dx, dx := -s.dy, dy := s.dx }
  else
    { x := s.x + s.dx, y := s.y + s.dy, dx := s.dx, dy := s.dy }

/-- Initial state of the spiral walk: `x = y = 0`, `dx = 0`, `dy = -1`. -/
def spInit : SpState := { x := 0, y := 0, dx := 0, dy := -1 }

/-- Spiral state before loop iteration `n`. -/
def spState (n : ℕ) : SpState := spStep^[n] spInit

/-- Position tested (and possibly accepted) at loop iteration `n`. -/
def spPos (n : ℕ) : ℤ × ℤ := ((spState n).x, (spState n).y)

/-- Positions tested during the first `n` loop iterations, in order. -/
def spTraceFrom (s : SpState) (n : ℕ) : List (ℤ × ℤ) :=
  (List.range n).map (fun i => ((spStep^[i] s).x, (spStep^[i] s).y))

/-- Positions tested during the first `n` iterations from the start. -/
def spTrace (n : ℕ) : List (ℤ × ℤ) := spTraceFrom spInit n

theorem spTrace_eq (n : ℕ) : spTrace n = (List.range n).map spPos := rfl

theorem SpState.eq_of (a b : SpState) (hx : a.x = b.x) (hy : a.y = b.y)
    (hdx : a.dx = b.dx) (hdy : a.dy = b.dy) : a = b := by
  cases a; cases b; simp_all

theorem spTraceFrom_add (s : SpState) (m n : ℕ) :
    spTraceFrom s (m + n) = spTraceFrom s m ++ spTraceFrom (spStep^[m] s) n := by
  unfold spTraceFrom
  rw [List.range_add, List.map_append, List.map_map]
  congr 1
  apply List.map_congr_left
  intro i _
  have hi : m + i = i + m := Nat.add_comm m i
  simp only [Function.comp_apply, hi, Function.iterate_add_apply]

theorem spStep_rot (s : SpState) (h : rotCond s.x s.y) :
    spStep s = { x := s.x - s.dy, y := s.y + s.dx, dx := -s.dy, dy := s.dx } := by
  unfold spStep; rw [if_pos h]

theorem spStep_straight (s : SpState) (h : ¬ rotCond s.x s.y) :
    spStep s = { x := s.x + s.dx, y := s.y + s.dy, dx := s.dx, dy := s.dy } := by
  unfold spStep; rw [if_neg h]

/-- Iterating the loop along a straight run with no rotation. -/
theorem spStep_iterate_straight (x y dx dy : ℤ) (n : ℕ)
    (h : ∀ j : ℕ, j < n → ¬ rotCond (x + j * dx) (y + j * dy)) :
    spStep^[n] ⟨x, y, dx, dy⟩ = ⟨x + n * dx, y + n * dy, dx, dy⟩ := by
  induction n with
  | zero => simp
  | succ n ih =>
    rw [Function.iterate_succ_apply', ih (fun j hj => h j (Nat.lt_succ_of_lt hj))]
    rw [spStep_straight _ (h n (Nat.lt_succ_self n))]
    simp
    constructor <;> push_cast <;> ring

/-- Trace of a straight run is the list of linearly spaced positions. -/
theorem spTraceFrom_straight (x y dx dy : ℤ) (n : ℕ)
    (h : ∀ j : ℕ, j < n → ¬ rotCond (x + j * dx) (y + j * dy)) :
    spTraceFrom ⟨x, y, dx, dy⟩ n =
      (List.range n).map (fun j : ℕ => (x + (j : ℤ) * dx, y + (j : ℤ) * dy)) := by
  unfold spTraceFrom
  apply List.map_congr_left
  intro i hi
  rw [List.mem_range] at hi
  rw [spStep_iterate_straight x y dx dy i (fun j hj => h j (lt_trans hj hi))]

theorem spTraceFrom_one (s : SpState) : spTraceFrom s 1 = [(s.x, s.y)] := by
  simp [spTraceFrom, List.range_succ]

/-- One ring of the spiral: from the state reached after `(2k+1)^2`
iterations, the next `4k+3` iterations walk up the column `x = k+1` and
then left along the row `y = k+1`. -/
theorem ringA (k : ℕ) :
    spStep^[4*k+3] ⟨(k:ℤ)+1, -(k:ℤ), 1, 0⟩ = ⟨-(k:ℤ)-1, (k:ℤ)+1, -1, 0⟩ ∧
    spTraceFrom ⟨(k:ℤ)+1, -(k:ℤ), 1, 0⟩ (4*k+3) =
      [((k:ℤ)+1, -(k:ℤ))]
      ++ (List.range (2*k)).map (fun j : ℕ => ((k:ℤ)+1, -(k:ℤ)+1+(j:ℤ)))
      ++ [((k:ℤ)+1, (k:ℤ)+1)]
      ++ (List.range (2*k+1)).map (fun j : ℕ => ((k:ℤ)-(j:ℤ), (k:ℤ)+1)) := by
  have hc1 : rotCond ((k:ℤ)+1) (-(k:ℤ)) := by unfold rotCond; omega
  have c1 : spStep ⟨(k:ℤ)+1, -(k:ℤ), 1, 0⟩ = ⟨(k:ℤ)+1, -(k:ℤ)+1, 0, 1⟩ := by
    rw [spStep_rot _ hc1]; norm_num
  have hs1 : ∀ j : ℕ, j < 2*k → ¬ rotCond ((k:ℤ)+1 + (j:ℤ)*0) (-(k:ℤ)+1 + (j:ℤ)*1) := by
    intro j hj; unfold rotCond; push_cast; omega
  have s1 : spStep^[2*k] (⟨(k:ℤ)+1, -(k:ℤ)+1, 0, 1⟩ : SpState) =
      ⟨(k:ℤ)+1, (k:ℤ)+1, 0, 1⟩ := by
    rw [spStep_iterate_straight _ _ _ _ _ hs1]
    exact SpState.eq_of _ _ (by push_cast; ring) (by push_cast; ring) rfl rfl
  have hc2 : rotCond ((k:ℤ)+1) ((k:ℤ)+1) := by unfold rotCond; omega
  have c2 : spStep ⟨(k:ℤ)+1, (k:ℤ)+1, 0, 1⟩ = ⟨(k:ℤ), (k:ℤ)+1, -1, 0⟩ := by
    rw [spStep_rot _ hc2]; norm_num
  have hs2 : ∀ j : ℕ, j < 2*k+1 → ¬ rotCond ((k:ℤ) + (j:ℤ)*(-1)) ((k:ℤ)+1 + (j:ℤ)*0) := by
    intro j hj; unfold rotCond; push_cast; omega
  have s2 : spStep^[2*k+1] (⟨(k:ℤ), (k:ℤ)+1, -1, 0⟩ : SpState) =
      ⟨-(k:ℤ)-1, (k:ℤ)+1, -1, 0⟩ := by
    rw [spStep_iterate_straight _ _ _ _ _ hs2]
    exact SpState.eq_of _ _ (by push_cast; ring) (by push_cast; ring) rfl rfl
  have e1 : spStep^[2*k+1] (⟨(k:ℤ)+1, -(k:ℤ), 1, 0⟩ : SpState) =
      ⟨(k:ℤ)+1, (k:ℤ)+1, 0, 1⟩ := by
    rw [show 2*k+1 = 2*k + 1 from rfl, Function.iterate_add_apply,
      Function.iterate_one, c1, s1]
  have e2 : spStep^[2*k+2] (⟨(k:ℤ)+1, -(k:ℤ), 1, 0⟩ : SpState) =
      ⟨(k:ℤ), (k:ℤ)+1, -1, 0⟩ := by
    rw [show 2*k+2 = 1 + (2*k+1) by ring, Function.iterate_add_apply,
      Function.iterate_one, e1, c2]
  constructor
  · rw [show 4*k+3 = (2*k+1) + (2*k+2) by ring, Function.iterate_add_apply, e2, s2]
  · rw [show 4*k+3 = 1 + ((2*k) + (1 + (2*k+1))) by ring]
    rw [spTraceFrom_add, spTraceFrom_one, Function.iterate_one, c1]
    rw [spTraceFrom_add, s1, spTraceFrom_add _ 1 (2*k+1), spTraceFrom_one,
      Function.iterate_one, c2, spTraceFrom_straight _ _ _ _ _ hs1,
      spTraceFrom_straight _ _ _ _ _ hs2]
    simp only [List.append_assoc, List.cons_append, List.nil_append]
    congr 1
    congr 1
    · apply List.map_congr_left
      intro j _
      simp only [Prod.mk.injEq]
      refine ⟨by ring, by ring⟩
    congr 1
    apply List.map_congr_left
    intro j _
    simp only [Prod.mk.injEq]
    refine ⟨by ring, by ring⟩

/-- The other half-ring: from the state reached after `(2k+2)^2`
iterations, the next `4k+5` iterations walk down the column `x = -(k+1)`
and then right along the row `y = -(k+1)`. -/
theorem ringB (k : ℕ) :
    spStep^[4*k+5] ⟨-(k:ℤ)-1, (k:ℤ)+1, -1, 0⟩ = ⟨(k:ℤ)+2, -(k:ℤ)-1, 1, 0⟩ ∧
    spTraceFrom ⟨-(k:ℤ)-1, (k:ℤ)+1, -1, 0⟩ (4*k+5) =
      [(-(k:ℤ)-1, (k:ℤ)+1)]
      ++ (List.range (2*k+1)).map (fun j : ℕ => (-(k:ℤ)-1, (k:ℤ)-(j:ℤ)))
      ++ [(-(k:ℤ)-1, -(k:ℤ)-1)]
      ++ (List.range (2*k+2)).map (fun j : ℕ => (-(k:ℤ)+(j:ℤ), -(k:ℤ)-1)) := by
  have hc1 : rotCond (-(k:ℤ)-1) ((k:ℤ)+1) := by unfold rotCond; omega
  have c1 : spStep ⟨-(k:ℤ)-1, (k:ℤ)+1, -1, 0⟩ = ⟨-(k:ℤ)-1, (k:ℤ), 0, -1⟩ := by
    rw [spStep_rot _ hc1]
    exact SpState.eq_of _ _ (by ring) (by ring) (by norm_num) rfl
  have hs1 : ∀ j : ℕ, j < 2*k+1 → ¬ rotCond (-(k:ℤ)-1 + (j:ℤ)*0) ((k:ℤ) + (j:ℤ)*(-1)) := by
    intro j hj; unfold rotCond; push_cast; omega
  have s1 : spStep^[2*k+1] (⟨-(k:ℤ)-1, (k:ℤ), 0, -1⟩ : SpState) =
      ⟨-(k:ℤ)-1, -(k:ℤ)-1, 0, -1⟩ := by
    rw [spStep_iterate_straight _ _ _ _ _ hs1]
    exact SpState.eq_of _ _ (by push_cast; ring) (by push_cast; ring) rfl rfl
  have hc2 : rotCond (-(k:ℤ)-1) (-(k:ℤ)-1) := by unfold rotCond; omega
  have c2 : spStep ⟨-(k:ℤ)-1, -(k:ℤ)-1, 0, -1⟩ = ⟨-(k:ℤ), -(k:ℤ)-1, 1, 0⟩ := by
    rw [spStep_rot _ hc2]
    exact SpState.eq_of _ _ (by ring) (by ring) (by norm_num) rfl
  have hs2 : ∀ j : ℕ, j < 2*k+2 → ¬ rotCond (-(k:ℤ) + (j:ℤ)*1) (-(k:ℤ)-1 + (j:ℤ)*0) := by
    intro j hj; unfold rotCond; push_cast; omega
  have s2 : spStep^[2*k+2] (⟨-(k:ℤ), -(k:ℤ)-1, 1, 0⟩ : SpState) =
      ⟨(k:ℤ)+2, -(k:ℤ)-1, 1, 0⟩ := by
    rw [spStep_iterate_straight _ _ _ _ _ hs2]
    exact SpState.eq_of _ _ (by push_cast; ring) (by push_cast; ring) rfl rfl
  have e1 : spStep^[2*k+2] (⟨-(k:ℤ)-1, (k:ℤ)+1, -1, 0⟩ : SpState) =
      ⟨-(k:ℤ)-1, -(k:ℤ)-1, 0, -1⟩ := by
    rw [show 2*k+2 = (2*k+1) + 1 from rfl, Function.iterate_add_apply,
      Function.iterate_one, c1, s1]
  have e2 : spStep^[2*k+3] (⟨-(k:ℤ)-1, (k:ℤ)+1, -1, 0⟩ : SpState) =
      ⟨-(k:ℤ), -(k:ℤ)-1, 1, 0⟩ := by
    rw [show 2*k+3 = 1 + (2*k+2) by ring, Function.iterate_add_apply,
      Function.iterate_one, e1, c2]
  constructor
  · rw [show 4*k+5 = (2*k+2) + (2*k+3) by ring, Function.iterate_add_apply, e2, s2]
  · rw [show 4*k+5 = 1 + ((2*k+1) + (1 + (2*k+2))) by ring]
    rw [spTraceFrom_add, spTraceFrom_one, Function.iterate_one, c1]
    rw [spTraceFrom_add, s1, spTraceFrom_add _ 1 (2*k+2), spTraceFrom_one,
      Function.iterate_one, c2, spTraceFrom_straight _ _ _ _ _ hs1,
      spTraceFrom_straight _ _ _ _ _ hs2]
    simp only [List.append_assoc, List.cons_append, List.nil_append]
    congr 1
    congr 1
    · apply List.map_congr_left
      intro j _
      simp only [Prod.mk.injEq]
      refine ⟨by ring, by ring⟩
    congr 1
    apply List.map_congr_left
    intro j _
    simp only [Prod.mk.injEq]
    refine ⟨by ring, by ring⟩

/-- Membership in the square of side `M` that the first `M^2` iterations
of the spiral cover: the integer points of `(-M/2, M/2] x (-M/2, M/2]`. -/
def inSquare (M : ℕ) (p : ℤ × ℤ) : Prop :=
  -(M:ℤ) < 2*p.1 ∧ 2*p.1 ≤ M ∧ -(M:ℤ) < 2*p.2 ∧ 2*p.2 ≤ M

instance (M : ℕ) (p : ℤ × ℤ) : Decidable (inSquare M p) := by
  unfold inSquare; infer_instance

theorem count_seg_up (a b : ℤ) (n : ℕ) (px py : ℤ) :
    ((List.range n).map (fun j : ℕ => (a, b + (j:ℤ)))).count (px, py)
      = if px = a ∧ b ≤ py ∧ py < b + n then 1 else 0 := by
  induction n with
  | zero =>
    simp only [List.range_zero, List.map_nil, List.count_nil]
    symm; rw [if_neg]; rintro ⟨h1, h2, h3⟩; push_cast at h3; omega
  | succ n ih =>
    rw [List.range_succ, List.map_append, List.count_append, ih]
    simp only [List.map_cons, List.map_nil, List.count_cons, List.count_nil,
      beq_iff_eq, Prod.mk.injEq]
    split_ifs <;> push_cast at * <;> omega

theorem count_seg_down (a b : ℤ) (n : ℕ) (px py : ℤ) :
    ((List.range n).map (fun j : ℕ => (a, b - (j:ℤ)))).count (px, py)
      = if px = a ∧ b - n < py ∧ py ≤ b then 1 else 0 := by
  induction n with
  | zero =>
    simp only [List.range_zero, List.map_nil, List.count_nil]
    symm; rw [if_neg]; rintro ⟨h1, h2, h3⟩; push_cast at h2; omega
  | succ n ih =>
    rw [List.range_succ, List.map_append, List.count_append, ih]
    simp only [List.map_cons, List.map_nil, List.count_cons, List.count_nil,
      beq_iff_eq, Prod.mk.injEq]
    split_ifs <;> push_cast at * <;> omega

theorem count_seg_right (a b : ℤ) (n : ℕ) (px py : ℤ) :
    ((List.range n).map (fun j : ℕ => (a + (j:ℤ), b))).count (px, py)
      = if py = b ∧ a ≤ px ∧ px < a + n then 1 else 0 := by
  induction n with
  | zero =>
    simp only [List.range_zero, List.map_nil, List.count_nil]
    symm; rw [if_neg]; rintro ⟨h1, h2, h3⟩; push_cast at h3; omega
  | succ n ih =>
    rw [List.range_succ, List.map_append, List.count_append, ih]
    simp only [List.map_cons, List.map_nil, List.count_cons, List.count_nil,
      beq_iff_eq, Prod.mk.injEq]
    split_ifs <;> push_cast at * <;> omega

theorem count_seg_left (a b : ℤ) (n : ℕ) (px py : ℤ) :
    ((List.range n).map (fun j : ℕ => (a - (j:ℤ), b))).count (px, py)
      = if py = b ∧ a - n < px ∧ px ≤ a then 1 else 0 := by
  induction n with
  | zero =>
    simp only [List.range_zero, List.map_nil, List.count_nil]
    symm; rw [if_neg]; rintro ⟨h1, h2, h3⟩; push_cast at h2; omega
  | succ n ih =>
    rw [List.range_succ, List.map_append, List.count_append, ih]
    simp only [List.map_cons, List.map_nil, List.count_cons, List.count_nil,
      beq_iff_eq, Prod.mk.injEq]
    split_ifs <;> push_cast at * <;> omega

theorem count_ringA (k : ℕ) (px py : ℤ) :
    ([((k:ℤ)+1, -(k:ℤ))]
      ++ (List.range (2*k)).map (fun j : ℕ => ((k:ℤ)+1, -(k:ℤ)+1+(j:ℤ)))
      ++ [((k:ℤ)+1, (k:ℤ)+1)]
      ++ (List.range (2*k+1)).map (fun j : ℕ => ((k:ℤ)-(j:ℤ), (k:ℤ)+1))).count (px, py)
    = if inSquare (2*k+2) (px, py) ∧ ¬ inSquare (2*k+1) (px, py) then 1 else 0 := by
  rw [List.count_append, List.count_append, List.count_append,
    count_seg_up, count_seg_left]
  simp only [List.count_cons, List.count_nil, beq_iff_eq, Prod.mk.injEq, inSquare]
  push_cast
  split_ifs <;> omega

theorem count_ringB (k : ℕ) (px py : ℤ) :
    ([(-(k:ℤ)-1, (k:ℤ)+1)]
      ++ (List.range (2*k+1)).map (fun j : ℕ => (-(k:ℤ)-1, (k:ℤ)-(j:ℤ)))
      ++ [(-(k:ℤ)-1, -(k:ℤ)-1)]
      ++ (List.range (2*k+2)).map (fun j : ℕ => (-(k:ℤ)+(j:ℤ), -(k:ℤ)-1))).count (px, py)
    = if inSquare (2*k+3) (px, py) ∧ ¬ inSquare (2*k+2) (px, py) then 1 else 0 := by
  rw [List.count_append, List.count_append, List.count_append,
    count_seg_down, count_seg_right]
  simp only [List.count_cons, List.count_nil, beq_iff_eq, Prod.mk.injEq, inSquare]
  push_cast
  split_ifs <;> omega

/-- States of the spiral at the square iteration counts. -/
theorem spState_ring (k : ℕ) :
    spState ((2*k+1)^2) = ⟨(k:ℤ)+1, -(k:ℤ), 1, 0⟩ ∧
    spState ((2*k+2)^2) = ⟨-(k:ℤ)-1, (k:ℤ)+1, -1, 0⟩ := by
  induction k with
  | zero =>
    constructor
    · show spStep^[1] spInit = _
      decide
    · show spStep^[4] spInit = _
      decide
  | succ k ih =>
    have hodd : spState ((2*(k+1)+1)^2) = ⟨((k:ℤ)+1)+1, -((k:ℤ)+1), 1, 0⟩ := by
      have harith : (2*(k+1)+1)^2 = (4*k+5) + (2*k+2)^2 := by ring
      unfold spState at ih ⊢
      rw [harith, Function.iterate_add_apply, ih.2, (ringB k).1]
      exact SpState.eq_of _ _ (by push_cast; ring) (by push_cast; ring) rfl rfl
    constructor
    · rw [hodd]
      exact SpState.eq_of _ _ (by push_cast; ring) (by push_cast; ring) rfl rfl
    · have harith : (2*(k+1)+2)^2 = (4*(k+1)+3) + (2*(k+1)+1)^2 := by ring
      unfold spState at hodd ⊢
      rw [harith, Function.iterate_add_apply, hodd]
      have := (ringA (k+1)).1
      push_cast at this ⊢
      rw [this]

/-- Each of the first `M^2` spiral iterations tests a distinct position,
and together they test exactly the points of the square of side `M`. -/
theorem spTrace_count (M : ℕ) (p : ℤ × ℤ) :
    (spTrace (M^2)).count p = if inSquare M p then 1 else 0 := by
  obtain ⟨px, py⟩ := p
  -- joint induction on the ring index, odd and even sides together
  suffices h : ∀ k : ℕ,
      (∀ qx qy : ℤ, (spTrace ((2*k+1)^2)).count (qx, qy)
        = if inSquare (2*k+1) (qx, qy) then 1 else 0) ∧
      (∀ qx qy : ℤ, (spTrace ((2*k+2)^2)).count (qx, qy)
        = if inSquare (2*k+2) (qx, qy) then 1 else 0) by
    rcases M with _ | M
    · simp only [pow_two, Nat.zero_mul, spTrace, spTraceFrom, List.range_zero,
        List.map_nil, List.count_nil]
      symm; rw [if_neg]; unfold inSquare; push_cast; omega
    · rcases Nat.even_or_odd (M+1) with ⟨c, hc⟩ | ⟨c, hc⟩
      · have hc1 : c ≥ 1 := by omega
        obtain ⟨c', rfl⟩ : ∃ c', c = c' + 1 := ⟨c - 1, by omega⟩
        have : M + 1 = 2*c'+2 := by omega
        rw [this]
        exact (h c').2 px py
      · have : M + 1 = 2*c+1 := by omega
        rw [this]
        exact (h c).1 px py
  intro k
  induction k with
  | zero =>
    constructor
    · intro qx qy
      have h1 : spTrace ((2*0+1)^2) = [((0:ℤ), (0:ℤ))] := by decide
      rw [h1]
      simp only [List.count_cons, List.count_nil, beq_iff_eq, Prod.mk.injEq, inSquare]
      push_cast
      split_ifs <;> omega
    · intro qx qy
      have harith : (2*0+2)^2 = (2*0+1)^2 + (4*0+3) := by norm_num
      rw [harith]
      show (spTraceFrom spInit _).count _ = _
      rw [spTraceFrom_add]
      rw [show spStep^[(2*0+1)^2] spInit = spState ((2*0+1)^2) from rfl,
        (spState_ring 0).1, (ringA 0).2]
      rw [List.count_append]
      have h1 : (spTraceFrom spInit ((2*0+1)^2)).count (qx, qy)
          = if inSquare (2*0+1) (qx, qy) then 1 else 0 := by
        have h2 : spTraceFrom spInit ((2*0+1)^2) = [((0:ℤ), (0:ℤ))] := by decide
        rw [h2]
        simp only [List.count_cons, List.count_nil, beq_iff_eq, Prod.mk.injEq, inSquare]
        push_cast
        split_ifs <;> omega
      rw [h1, count_ringA 0 qx qy]
      simp only [inSquare]
      push_cast
      split_ifs <;> omega
  | succ k ih =>
    have hodd : ∀ qx qy : ℤ, (spTrace ((2*(k+1)+1)^2)).count (qx, qy)
        = if inSquare (2*(k+1)+1) (qx, qy) then 1 else 0 := by
      intro qx qy
      have harith : (2*(k+1)+1)^2 = (2*k+2)^2 + (4*k+5) := by ring
      rw [harith]
      show (spTraceFrom spInit _).count _ = _
      rw [spTraceFrom_add]
      rw [show spStep^[(2*k+2)^2] spInit = spState ((2*k+2)^2) from rfl,
        (spState_ring k).2, (ringB k).2, List.count_append]
      have h1 := ih.2 qx qy
      rw [show ((spTraceFrom spInit ((2*k+2)^2)).count (qx, qy)) = _ from h1,
        count_ringB k qx qy]
      simp only [inSquare]
      push_cast
      split_ifs <;> omega
    refine ⟨hodd, ?_⟩
    intro qx qy
    have harith : (2*(k+1)+2)^2 = (2*(k+1)+1)^2 + (4*(k+1)+3) := by ring
    rw [harith]
    show (spTraceFrom spInit _).count _ = _
    rw [spTraceFrom_add]
    rw [show spStep^[(2*(k+1)+1)^2] spInit = spState ((2*(k+1)+1)^2) from rfl,
      (spState_ring (k+1)).1, (ringA (k+1)).2, List.count_append]
    have h1 := hodd qx qy
    rw [show ((spTraceFrom spInit ((2*(k+1)+1)^2)).count (qx, qy)) = _ from h1,
      count_ringA (k+1) qx qy]
    simp only [inSquare]
    push_cast
    split_ifs <;> omega

/-! ## Accepted cells of `placeSpiral` (lines 298-319 of `mosaic.py`)

The loop runs `max(XD, YD)**2` iterations; an iteration whose position
`(x, y)` satisfies `-XD/2 < x <= XD/2 and -YD/2 < y <= YD/2` places a tile
at row `jc + y`, column `ic + x`, where `ic = int((XD-1)/2)` and
`jc = int((YD-1)/2)`.  The float comparisons `x <= XD/2` on integer `x`
are exact, so over the integers they are `2*x <= XD` and so on. -/

/-- The in-rectangle test of the spiral loop (line 306). -/
def inRect (XD YD : ℕ) (p : ℤ × ℤ) : Prop :=
  -(XD:ℤ) < 2*p.1 ∧ 2*p.1 ≤ XD ∧ -(YD:ℤ) < 2*p.2 ∧ 2*p.2 ≤ YD

instance (XD YD : ℕ) (p : ℤ × ℤ) : Decidable (inRect XD YD p) := by
  unfold inRect; infer_instance

/-- Grid centre column: `ic = int((XD-1)/2)` (line 299). -/
def centerCol (XD : ℕ) : ℤ := (((XD - 1) / 2 : ℕ) : ℤ)

/-- Grid centre row: `jc = int((YD-1)/2)` (line 300). -/
def centerRow (YD : ℕ) : ℤ := (((YD - 1) / 2 : ℕ) : ℤ)

/-- The grid cells `(row, col)` accepted by the spiral loop, in placement
order. -/
def acceptedCells (XD YD : ℕ) : List (ℤ × ℤ) :=
  ((spTrace ((max XD YD)^2)).filter (fun p => decide (inRect XD YD p))).map
    (fun p => (centerRow YD + p.2, centerCol XD + p.1))

theorem count_map_inj (l : List (ℤ × ℤ)) (f : ℤ × ℤ → ℤ × ℤ)
    (hf : Function.Injective f) (x : ℤ × ℤ) : (l.map f).count (f x) = l.count x := by
  induction l with
  | nil => simp
  | cons a t ih =>
    simp only [List.map_cons, List.count_cons, beq_iff_eq, ih, hf.eq_iff]

theorem acceptedCells_count (XD YD : ℕ) (r c : ℤ)
    (hr0 : 0 ≤ r) (hr1 : r < YD) (hc0 : 0 ≤ c) (hc1 : c < XD) :
    (acceptedCells XD YD).count (r, c) = 1 := by
  unfold acceptedCells
  have hinj : Function.Injective
      (fun p : ℤ × ℤ => (centerRow YD + p.2, centerCol XD + p.1)) := by
    intro p q h
    simp only [Prod.mk.injEq] at h
    obtain ⟨h1, h2⟩ := h
    exact Prod.ext (by omega) (by omega)
  have hrc : (r, c) = (centerRow YD + (c - centerCol XD, r - centerRow YD).2,
      centerCol XD + (c - centerCol XD, r - centerRow YD).1) := by
    simp only [Prod.mk.injEq]
    constructor <;> ring
  rw [hrc, count_map_inj _ _ hinj (c - centerCol XD, r - centerRow YD)]
  have hrect : inRect XD YD (c - centerCol XD, r - centerRow YD) := by
    unfold inRect centerCol centerRow
    simp only
    push_cast
    omega
  rw [List.count_filter (by simpa using hrect)]
  rw [spTrace_count]
  rw [if_pos]
  unfold inSquare inRect at *
  have h1 : XD ≤ max XD YD := Nat.le_max_left XD YD
  have h2 : YD ≤ max XD YD := Nat.le_max_right XD YD
  simp only at hrect ⊢
  push_cast at hrect ⊢
  omega

theorem acceptedCells_mem (XD YD : ℕ) (q : ℤ × ℤ) (hq : q ∈ acceptedCells XD YD) :
    0 ≤ q.1 ∧ q.1 < YD ∧ 0 ≤ q.2 ∧ q.2 < XD := by
  unfold acceptedCells at hq
  obtain ⟨p, hp, rfl⟩ := List.mem_map.mp hq
  have hrect : inRect XD YD p := by
    have := List.of_mem_filter hp
    simpa using this
  unfold inRect at hrect
  unfold centerCol centerRow
  obtain ⟨px, py⟩ := p
  simp only at hrect ⊢
  push_cast
  omega

theorem acceptedCells_head (XD YD : ℕ) (hX : 1 ≤ XD) (hY : 1 ≤ YD) :
    (acceptedCells XD YD).head? = some (centerRow YD, centerCol XD) := by
  unfold acceptedCells
  obtain ⟨m, hm⟩ : ∃ m, (max XD YD)^2 = 1 + m :=
    ⟨(max XD YD)^2 - 1, by
      have h1 : 1 ≤ max XD YD := le_trans hX (Nat.le_max_left XD YD)
      have h2 : 1 ≤ (max XD YD)^2 := Nat.one_le_pow _ _ (by omega)
      omega⟩
  rw [hm]
  have hsplit : spTrace (1 + m) = spTraceFrom spInit 1 ++ spTraceFrom (spStep^[1] spInit) m :=
    spTraceFrom_add spInit 1 m
  rw [hsplit, spTraceFrom_one]
  have hzero : inRect XD YD (spInit.x, spInit.y) := by
    unfold inRect spInit
    simp only
    push_cast
    omega
  rw [List.cons_append, List.nil_append, List.filter_cons, if_pos (by simpa using hzero)]
  simp [spInit]

/-- Claim C1: for every grid with `XD >= 1` and `YD >= 1`, the spiral
scheduler, iterating at most `max(XD,YD)^2` steps of the step pattern,
accepts every cell of the `XD x YD` rectangle exactly once (no cell
placed twice, none missed), and the grid-center cell
`(int((YD-1)/2), int((XD-1)/2))` is the first cell accepted. -/
theorem spiral_coverage (XD YD : ℕ) (hX : 1 ≤ XD) (hY : 1 ≤ YD) :
    (∀ r c : ℤ, 0 ≤ r → r < YD → 0 ≤ c → c < XD →
      (acceptedCells XD YD).count (r, c) = 1) ∧
    (∀ q ∈ acceptedCells XD YD, 0 ≤ q.1 ∧ q.1 < YD ∧ 0 ≤ q.2 ∧ q.2 < XD) ∧
    (acceptedCells XD YD).head? = some (centerRow YD, centerCol XD) := by
  refine ⟨?_, ?_, acceptedCells_head XD YD hX hY⟩
  · intro r c hr0 hr1 hc0 hc1
    exact acceptedCells_count XD YD r c hr0 hr1 hc0 hc1
  · intro q hq
    exact acceptedCells_mem XD YD q hq

/-- Witness for C1 at the concrete grid 2 x 2. -/
theorem spiral_coverage_witness :
    (acceptedCells 2 2).count (0, 0) = 1 ∧
    (acceptedCells 2 2).head? = some (centerRow 2, centerCol 2) := by
  have h := spiral_coverage 2 2 (by norm_num) (by norm_num)
  exact ⟨h.1 0 0 (by norm_num) (by norm_num) (by norm_num) (by norm_num), h.2.2⟩

/-! ## Colour distance and the tile matcher
(`distance` and `findBestTile`, `src/mosaic.py` lines 199-253)

Images are modelled as functions from pixel coordinates `(x, y)` (PIL's
`getpixel` order: x is the column) to RGB triples of integers.  The colour
table is a list of `(filename, (redval, greenval, blueval))` entries. -/

/-- An RGB pixel: (red, green, blue). -/
abbrev RGB : Type := ℤ × ℤ × ℤ

/-- One colour-table entry: filename and the dim*dim colours as separate
lists for R, G and B (`readcolourtable`, lines 117-143). -/
abbrev CatalogEntry : Type := String × (List ℤ × List ℤ × List ℤ)

/-- An image: `getpixel((x, y))`. -/
abbrev Img : Type := ℤ → ℤ → RGB

/-- The Euclidean distance sum of `distance` (lines 199-208): for each of
the `dim*dim` squares, the straight-line distance between the two RGB
triples, summed. -/
noncomputable def distance (dim : ℕ) (r1 g1 b1 r2 g2 b2 : List ℤ) : ℝ :=
  ∑ p ∈ Finset.range (dim*dim),
    Real.sqrt ((((|r1.getD p 0 - r2.getD p 0|) * (|r1.getD p 0 - r2.getD p 0|)
      + (|g1.getD p 0 - g2.getD p 0|) * (|g1.getD p 0 - g2.getD p 0|)
      + (|b1.getD p 0 - b2.getD p 0|) * (|b1.getD p 0 - b2.getD p 0|) : ℤ) : ℝ))

/-- The red samples extracted from the input image at grid location
`(row, col)` (lines 224-230): pixels `(col*dim+fx, row*dim+fy)`, outer
loop on `fx`, inner loop on `fy`. -/
def sampleR (img : Img) (dim : ℕ) (row col : ℤ) : List ℤ :=
  ((List.range dim).map (fun fx => (List.range dim).map (fun fy =>
    (img (col * dim + fx) (row * dim + fy)).1))).flatten

/-- Green samples; see `sampleR`. -/
def sampleG (img : Img) (dim : ℕ) (row col : ℤ) : List ℤ :=
  ((List.range dim).map (fun fx => (List.range dim).map (fun fy =>
    (img (col * dim + fx) (row * dim + fy)).2.1))).flatten

/-- Blue samples; see `sampleR`. -/
def sampleB (img : Img) (dim : ℕ) (row col : ℤ) : List ℤ :=
  ((List.range dim).map (fun fx => (List.range dim).map (fun fy =>
    (img (col * dim + fx) (row * dim + fy)).2.2))).flatten

/-- The comparison value of catalog entry `i` at grid location
`(row, col)`: the `distance` to the sampled signature, divided by
`dim*dim` (lines 239-242). -/
noncomputable def tileDist (img : Img) (table : List CatalogEntry) (dim : ℕ)
    (row col : ℤ) (i : ℕ) : ℝ :=
  distance dim (sampleR img dim row col) (sampleG img dim row col)
    (sampleB img dim row col)
    (table.getD i ("", ([], [], []))).2.1
    (table.getD i ("", ([], [], []))).2.2.1
    (table.getD i ("", ([], [], []))).2.2.2
  / (dim*dim)

/-- One iteration of the selection loop of `findBestTile` (lines 233-246),
over an abstract candidate predicate `C` and distance `D`. -/
noncomputable def fbStep (D : ℕ → ℝ) (C : ℕ → Prop) [DecidablePred C]
    (acc : Option (ℕ × ℝ)) (i : ℕ) : Option (ℕ × ℝ) :=
  if C i then
    match acc with
    | none => some (i, D i)
    | some (b, bd) => if D i < bd then some (i, D i) else some (b, bd)
  else acc

/-- The selection loop of `findBestTile`: scan indices `0..n-1` keeping
the strictly closest candidate seen so far. -/
noncomputable def fbFold (D : ℕ → ℝ) (C : ℕ → Prop) [DecidablePred C] (n : ℕ) :
    Option (ℕ × ℝ) :=
  (List.range n).foldl (fbStep D C) none

/-- The candidate test of line 234: `allowDups or i not in placedTiles`. -/
def isCand (allowDups : Bool) (placed : Finset ℤ) (i : ℕ) : Prop :=
  allowDups = true ∨ (i:ℤ) ∉ placed

instance (allowDups : Bool) (placed : Finset ℤ) (i : ℕ) :
    Decidable (isCand allowDups placed i) := by
  unfold isCand; infer_instance

/-- `findBestTile` (lines 217-253): returns `some (index, distance)`, or
`none` when no candidate exists (the `assert found` fails and the run
aborts). -/
noncomputable def findBestTile (img : Img) (allowDups : Bool) (placed : Finset ℤ)
    (table : List CatalogEntry) (dim : ℕ) (row col : ℤ) : Option (ℕ × ℝ) :=
  fbFold (tileDist img table dim row col) (isCand allowDups placed) table.length

/-- Result characterisation of the selection loop over the index list
`S`: either nothing was a candidate, or the result is the first candidate
attaining the minimum distance. -/
def BestAcc (D : ℕ → ℝ) (C : ℕ → Prop) (S : List ℕ) (r : Option (ℕ × ℝ)) : Prop :=
  (r = none ∧ ∀ i ∈ S, ¬ C i) ∨
  (∃ b, r = some (b, D b) ∧ b ∈ S ∧ C b ∧ (∀ j ∈ S, C j → D b ≤ D j) ∧
    (∀ j ∈ S, C j → D j = D b → b ≤ j))

theorem fbStep_best (D : ℕ → ℝ) (C : ℕ → Prop) [DecidablePred C]
    (S : List ℕ) (acc : Option (ℕ × ℝ)) (i : ℕ)
    (hle : ∀ s ∈ S, s ≤ i) (hacc : BestAcc D C S acc) :
    BestAcc D C (S ++ [i]) (fbStep D C acc i) := by
  rcases hacc with ⟨rfl, hnone⟩ | ⟨b, rfl, hmem, hcb, hmin, htie⟩
  · show BestAcc D C (S ++ [i]) (if C i then some (i, D i) else none)
    by_cases hci : C i
    · rw [if_pos hci]
      right
      refine ⟨i, rfl, by simp, hci, ?_, ?_⟩
      · intro j hj hcj
        rcases List.mem_append.mp hj with hj | hj
        · exact absurd hcj (hnone j hj)
        · simp only [List.mem_singleton] at hj
          subst hj; exact le_refl _
      · intro j hj hcj _
        rcases List.mem_append.mp hj with hj | hj
        · exact absurd hcj (hnone j hj)
        · simp only [List.mem_singleton] at hj; omega
    · rw [if_neg hci]
      left
      refine ⟨rfl, ?_⟩
      intro j hj
      rcases List.mem_append.mp hj with hj | hj
      · exact hnone j hj
      · simp only [List.mem_singleton] at hj; subst hj; exact hci
  · show BestAcc D C (S ++ [i])
      (if C i then (if D i < D b then some (i, D i) else some (b, D b))
       else some (b, D b))
    by_cases hci : C i
    · rw [if_pos hci]
      by_cases hlt : D i < D b
      · rw [if_pos hlt]
        right
        refine ⟨i, rfl, by simp, hci, ?_, ?_⟩
        · intro j hj hcj
          rcases List.mem_append.mp hj with hj | hj
          · exact le_of_lt (lt_of_lt_of_le hlt (hmin j hj hcj))
          · simp only [List.mem_singleton] at hj; subst hj; exact le_refl _
        · intro j hj hcj hdj
          rcases List.mem_append.mp hj with hj | hj
          · exact absurd hdj (ne_of_lt (lt_of_lt_of_le hlt (hmin j hj hcj))).symm
          · simp only [List.mem_singleton] at hj; omega
      · rw [if_neg hlt]
        right
        refine ⟨b, rfl, List.mem_append.mpr (Or.inl hmem), hcb, ?_, ?_⟩
        · intro j hj hcj
          rcases List.mem_append.mp hj with hj | hj
          · exact hmin j hj hcj
          · simp only [List.mem_singleton] at hj; subst hj
            exact le_of_not_lt hlt
        · intro j hj hcj hdj
          rcases List.mem_append.mp hj with hj | hj
          · exact htie j hj hcj hdj
          · simp only [List.mem_singleton] at hj; subst hj
            exact hle b hmem
    · rw [if_neg hci]
      right
      refine ⟨b, rfl, List.mem_append.mpr (Or.inl hmem), hcb, ?_, ?_⟩
      · intro j hj hcj
        rcases List.mem_append.mp hj with hj | hj
        · exact hmin j hj hcj
        · simp only [List.mem_singleton] at hj; subst hj; exact absurd hcj hci
      · intro j hj hcj hdj
        rcases List.mem_append.mp hj with hj | hj
        · exact htie j hj hcj hdj
        · simp only [List.mem_singleton] at hj; subst hj; exact absurd hcj hci

theorem fb_foldl_best (D : ℕ → ℝ) (C : ℕ → Prop) [DecidablePred C]
    (l : List ℕ) :
    ∀ (S : List ℕ) (acc : Option (ℕ × ℝ)),
      (∀ s ∈ S, ∀ t ∈ l, s ≤ t) → l.Pairwise (· ≤ ·) →
      BestAcc D C S acc →
      BestAcc D C (S ++ l) (l.foldl (fbStep D C) acc) := by
  induction l with
  | nil =>
    intro S acc _ _ hacc
    simpa using hacc
  | cons i l ih =>
    intro S acc hSl hpair hacc
    rw [List.foldl_cons, List.append_cons]
    apply ih (S ++ [i]) (fbStep D C acc i)
    · intro s hs t ht
      rcases List.mem_append.mp hs with hs | hs
      · exact hSl s hs t (List.mem_cons_of_mem _ ht)
      · simp only [List.mem_singleton] at hs; subst hs
        exact (List.pairwise_cons.mp hpair).1 t ht
    · exact (List.pairwise_cons.mp hpair).2
    · exact fbStep_best D C S acc i
        (fun s hs => hSl s hs i (List.mem_cons_self i l)) hacc

theorem fbFold_best (D : ℕ → ℝ) (C : ℕ → Prop) [DecidablePred C] (n : ℕ) :
    BestAcc D C (List.range n) (fbFold D C n) := by
  have h := fb_foldl_best D C (List.range n) [] none
    (by simp) (List.pairwise_le_range n) (Or.inl ⟨rfl, by simp⟩)
  simpa using h

/-- Claim C3: for every sampled signature and non-empty candidate set
(all catalog indices when duplicates are allowed, otherwise the indices
not in the used set), `findBestTile` returns a candidate of minimum
distance to the signature, and whenever two candidates have equal minimum
distance it returns the one with the lower catalog index. -/
theorem findBestTile_min (img : Img) (allowDups : Bool) (placed : Finset ℤ)
    (table : List CatalogEntry) (dim : ℕ) (row col : ℤ)
    (hne : ∃ i, i < table.length ∧ isCand allowDups placed i) :
    ∃ i, findBestTile img allowDups placed table dim row col
        = some (i, tileDist img table dim row col i) ∧
      i < table.length ∧ isCand allowDups placed i ∧
      (∀ j, j < table.length → isCand allowDups placed j →
        tileDist img table dim row col i ≤ tileDist img table dim row col j) ∧
      (∀ j, j < table.length → isCand allowDups placed j →
        tileDist img table dim row col j = tileDist img table dim row col i →
        i ≤ j) := by
  have h := fbFold_best (tileDist img table dim row col)
    (isCand allowDups placed) table.length
  rcases h with ⟨hnone, hno⟩ | ⟨b, heq, hmem, hcb, hmin, htie⟩
  · obtain ⟨i, hi, hci⟩ := hne
    exact absurd hci (hno i (List.mem_range.mpr hi))
  · exact ⟨b, heq, List.mem_range.mp hmem, hcb,
      fun j hj hcj => hmin j (List.mem_range.mpr hj) hcj,
      fun j hj hcj hd => htie j (List.mem_range.mpr hj) hcj hd⟩

/-- A constant black test image. -/
def imgZero : Img := fun _ _ => (0, 0, 0)

/-- A two-entry colour table whose entries have identical signatures. -/
def tableTwo : List CatalogEntry := [("a", ([5], [5], [5])), ("b", ([5], [5], [5]))]

/-- Witness for C3: on a table of two identical entries the matcher
returns a result (the theorem pins it to the lower index 0). -/
theorem findBestTile_min_witness :
    (findBestTile imgZero true ∅ tableTwo 1 0 0).isSome = true := by
  obtain ⟨i, heq, -⟩ := findBestTile_min imgZero true ∅ tableTwo 1 0 0
    ⟨0, by norm_num [tableTwo], Or.inl rfl⟩
  rw [heq]
  rfl

/-- The per-location comparison value of `findBestTile`: the `distance`
of two signatures divided by `dim*dim` (line 242 of `mosaic.py`). -/
noncomputable def scaledDistance (dim : ℕ) (r1 g1 b1 r2 g2 b2 : List ℤ) : ℝ :=
  distance dim r1 g1 b1 r2 g2 b2 / (dim*dim)

theorem distance_nonneg (dim : ℕ) (r1 g1 b1 r2 g2 b2 : List ℤ) :
    0 ≤ distance dim r1 g1 b1 r2 g2 b2 :=
  Finset.sum_nonneg (fun p _ => Real.sqrt_nonneg _)

set_option maxHeartbeats 1000000 in
/-- Claim C9: the signature distance used for matching equals the sum over
cells of the three-channel Euclidean distance divided by `d^2`; it is
symmetric, non-negative, and zero if and only if the signatures are
identical. -/
theorem scaledDistance_props (dim : ℕ) (r1 g1 b1 r2 g2 b2 : List ℤ)
    (hr1 : r1.length = dim*dim) (hg1 : g1.length = dim*dim)
    (hb1 : b1.length = dim*dim) (hr2 : r2.length = dim*dim)
    (hg2 : g2.length = dim*dim) (hb2 : b2.length = dim*dim) :
    scaledDistance dim r1 g1 b1 r2 g2 b2
      = (∑ p ∈ Finset.range (dim*dim),
          Real.sqrt ((((r1.getD p 0 - r2.getD p 0)^2 + (g1.getD p 0 - g2.getD p 0)^2
            + (b1.getD p 0 - b2.getD p 0)^2 : ℤ) : ℝ))) / (dim*dim) ∧
    scaledDistance dim r1 g1 b1 r2 g2 b2 = scaledDistance dim r2 g2 b2 r1 g1 b1 ∧
    0 ≤ scaledDistance dim r1 g1 b1 r2 g2 b2 ∧
    (scaledDistance dim r1 g1 b1 r2 g2 b2 = 0 ↔ (r1 = r2 ∧ g1 = g2 ∧ b1 = b2)) := by
  have habs : ∀ a : ℤ, |a| * |a| = a^2 := by
    intro a; rw [abs_mul_abs_self]; ring
  refine ⟨?_, ?_, ?_, ?_⟩
  · unfold scaledDistance distance
    congr 1
    apply Finset.sum_congr rfl
    intro p _
    rw [habs, habs, habs]
  · unfold scaledDistance distance
    congr 1
    apply Finset.sum_congr rfl
    intro p _
    rw [abs_sub_comm (r1.getD p 0) (r2.getD p 0),
      abs_sub_comm (g1.getD p 0) (g2.getD p 0),
      abs_sub_comm (b1.getD p 0) (b2.getD p 0)]
  · exact div_nonneg (distance_nonneg dim r1 g1 b1 r2 g2 b2) (by positivity)
  · constructor
    · intro h0
      rcases Nat.eq_zero_or_pos dim with hd | hd
      · subst hd
        simp only [Nat.zero_mul] at hr1 hg1 hb1 hr2 hg2 hb2
        rw [List.length_eq_zero.mp hr1, List.length_eq_zero.mp hg1,
          List.length_eq_zero.mp hb1, List.length_eq_zero.mp hr2,
          List.length_eq_zero.mp hg2, List.length_eq_zero.mp hb2]
        exact ⟨rfl, rfl, rfl⟩
      · have hdd : ((dim*dim : ℕ) : ℝ) ≠ 0 := by positivity
        have hdist : distance dim r1 g1 b1 r2 g2 b2 = 0 := by
          unfold scaledDistance at h0
          have := div_eq_zero_iff.mp h0
          rcases this with h | h
          · exact h
          · exact absurd (by push_cast at h ⊢; exact_mod_cast h) hdd
        unfold distance at hdist
        have hterm : ∀ p ∈ Finset.range (dim*dim),
            Real.sqrt ((((|r1.getD p 0 - r2.getD p 0|) * (|r1.getD p 0 - r2.getD p 0|)
              + (|g1.getD p 0 - g2.getD p 0|) * (|g1.getD p 0 - g2.getD p 0|)
              + (|b1.getD p 0 - b2.getD p 0|) * (|b1.getD p 0 - b2.getD p 0|) : ℤ) : ℝ)) = 0 :=
          (Finset.sum_eq_zero_iff_of_nonneg
            (fun p _ => Real.sqrt_nonneg _)).mp hdist
        have hpt : ∀ p, p < dim*dim →
            r1.getD p 0 = r2.getD p 0 ∧ g1.getD p 0 = g2.getD p 0 ∧
            b1.getD p 0 = b2.getD p 0 := by
          intro p hp
          have h1 := hterm p (Finset.mem_range.mpr hp)
          rw [habs, habs, habs] at h1
          have h2 : (((r1.getD p 0 - r2.getD p 0)^2 + (g1.getD p 0 - g2.getD p 0)^2
              + (b1.getD p 0 - b2.getD p 0)^2 : ℤ) : ℝ) = 0 := by
            have hnn : (0:ℝ) ≤ (((r1.getD p 0 - r2.getD p 0)^2
                + (g1.getD p 0 - g2.getD p 0)^2
                + (b1.getD p 0 - b2.getD p 0)^2 : ℤ) : ℝ) := by
              push_cast
              positivity
            exact (Real.sqrt_eq_zero hnn).mp h1
          have h3 : (r1.getD p 0 - r2.getD p 0)^2 + (g1.getD p 0 - g2.getD p 0)^2
              + (b1.getD p 0 - b2.getD p 0)^2 = 0 := by exact_mod_cast h2
          refine ⟨?_, ?_, ?_⟩ <;>
            nlinarith [sq_nonneg (r1.getD p 0 - r2.getD p 0),
              sq_nonneg (g1.getD p 0 - g2.getD p 0),
              sq_nonneg (b1.getD p 0 - b2.getD p 0)]
        refine ⟨?_, ?_, ?_⟩
        · apply List.ext_getElem (by omega)
          intro p hp1 hp2
          have := (hpt p (by omega)).1
          rwa [List.getD_eq_getElem r1 0 hp1, List.getD_eq_getElem r2 0 hp2] at this
        · apply List.ext_getElem (by omega)
          intro p hp1 hp2
          have := (hpt p (by omega)).2.1
          rwa [List.getD_eq_getElem g1 0 hp1, List.getD_eq_getElem g2 0 hp2] at this
        · apply List.ext_getElem (by omega)
          intro p hp1 hp2
          have := (hpt p (by omega)).2.2
          rwa [List.getD_eq_getElem b1 0 hp1, List.getD_eq_getElem b2 0 hp2] at this
    · rintro ⟨rfl, rfl, rfl⟩
      unfold scaledDistance distance
      rw [Finset.sum_eq_zero, zero_div]
      intro p _
      simp

/-- Witness for C9 at concrete equal signatures of dimension 1. -/
theorem scaledDistance_props_witness :
    scaledDistance 1 [5] [6] [7] [5] [6] [7] = 0 :=
  ((scaledDistance_props 1 [5] [6] [7] [5] [6] [7] rfl rfl rfl rfl rfl rfl).2.2.2).mpr
    ⟨rfl, rfl, rfl⟩

/-! ## The placement scheduler
(`placeBestTile` and `placeSpiral`, `src/mosaic.py` lines 259-320)

`tileLocations` (a Python dict keyed by `(row, col)`) is modelled as a
function to `Option (index, distance)`; `placedTiles` (a Python set of
colour-table indices, plus the sentinel `-1`) as a `Finset ℤ`.  The
`cnt`/`nTiles` parameters of `placeBestTile` only feed debug printing and
are omitted.  A failed `assert found` inside `findBestTile` aborts the
whole run: `none`. -/

/-- `placeBestTile` (lines 259-281): at the reserved origin cell record
the sentinel index `-1` with distance `0.0`; otherwise ask
`findBestTile`.  Either way the chosen index is added to `placedTiles`. -/
noncomputable def placeBestTile (origR origC : ℤ) (img : Img) (allowDups : Bool)
    (tileLocations : ℤ × ℤ → Option (ℤ × ℝ)) (placedTiles : Finset ℤ)
    (table : List CatalogEntry) (dim : ℕ) (row col : ℤ) :
    Option ((ℤ × ℤ → Option (ℤ × ℝ)) × Finset ℤ) :=
  if row = origR ∧ col = origC then
    some (Function.update tileLocations (row, col) (some (-1, 0)),
      insert (-1) placedTiles)
  else
    match findBestTile img allowDups placedTiles table dim row col with
    | none => none
    | some (i, d) =>
      some (Function.update tileLocations (row, col) (some ((i:ℤ), d)),
        insert ((i:ℤ)) placedTiles)

/-- One iteration of the spiral placement loop acting on a grid cell
`(row, col)`, with crash propagation. -/
noncomputable def cellStep (origR origC : ℤ) (img : Img) (allowDups : Bool)
    (table : List CatalogEntry) (dim : ℕ)
    (st : Option ((ℤ × ℤ → Option (ℤ × ℝ)) × Finset ℤ)) (c : ℤ × ℤ) :
    Option ((ℤ × ℤ → Option (ℤ × ℝ)) × Finset ℤ) :=
  match st with
  | none => none
  | some (locs, placed) =>
    placeBestTile origR origC img allowDups locs placed table dim c.1 c.2

/-- Processing a list of grid cells in order. -/
noncomputable def processCells (origR origC : ℤ) (img : Img) (allowDups : Bool)
    (table : List CatalogEntry) (dim : ℕ) (cells : List (ℤ × ℤ))
    (st : Option ((ℤ × ℤ → Option (ℤ × ℝ)) × Finset ℤ)) :
    Option ((ℤ × ℤ → Option (ℤ × ℝ)) × Finset ℤ) :=
  cells.foldl (cellStep origR origC img allowDups table dim) st

/-- The spiral placement loop of `placeSpiral` (lines 293-318): iterate
`max(XD, YD)**2` spiral steps, placing a tile whenever the position lies
in the grid rectangle. -/
noncomputable def spiralFold (img : Img) (origR origC : ℤ) (XD YD : ℕ)
    (table : List CatalogEntry) (dim : ℕ) (allowDups : Bool) :
    Option ((ℤ × ℤ → Option (ℤ × ℝ)) × Finset ℤ) :=
  (spTrace ((max XD YD)^2)).foldl
    (fun st p =>
      if inRect XD YD p then
        cellStep origR origC img allowDups table dim st
          (centerRow YD + p.2, centerCol XD + p.1)
      else st)
    (some (fun _ => none, ∅))

/-- `placeSpiral` (lines 290-320): the tile locations and
`len(placedTiles)`. -/
noncomputable def placeSpiral (img : Img) (origR origC : ℤ) (XD YD : ℕ)
    (table : List CatalogEntry) (dim : ℕ) (allowDups : Bool) :
    Option ((ℤ × ℤ → Option (ℤ × ℝ)) × ℕ) :=
  (spiralFold img origR origC XD YD table dim allowDups).map
    (fun st => (st.1, st.2.card))

theorem foldl_if_filter_map {St : Type} (f : St → (ℤ × ℤ) → St)
    (P : ℤ × ℤ → Prop) [DecidablePred P] (g : ℤ × ℤ → ℤ × ℤ)
    (l : List (ℤ × ℤ)) (st : St) :
    l.foldl (fun st p => if P p then f st (g p) else st) st
      = ((l.filter (fun p => decide (P p))).map g).foldl f st := by
  induction l generalizing st with
  | nil => rfl
  | cons a l ih =>
    rw [List.foldl_cons, List.filter_cons]
    by_cases hP : P a
    · rw [if_pos hP, if_pos (by simpa using hP), List.map_cons, List.foldl_cons, ih]
    · rw [if_neg hP, if_neg (by simpa using hP), ih]

/-- The spiral placement loop is the cell-by-cell processing of the
accepted cells, in spiral order. -/
theorem spiralFold_eq_processCells (img : Img) (origR origC : ℤ) (XD YD : ℕ)
    (table : List CatalogEntry) (dim : ℕ) (allowDups : Bool) :
    spiralFold img origR origC XD YD table dim allowDups
      = processCells origR origC img allowDups table dim (acceptedCells XD YD)
          (some (fun _ => none, ∅)) := by
  unfold spiralFold processCells acceptedCells
  rw [foldl_if_filter_map
    (cellStep origR origC img allowDups table dim)
    (inRect XD YD)
    (fun p => (centerRow YD + p.2, centerCol XD + p.1))]

theorem processCells_none (origR origC : ℤ) (img : Img) (allowDups : Bool)
    (table : List CatalogEntry) (dim : ℕ) (cells : List (ℤ × ℤ)) :
    processCells origR origC img allowDups table dim cells none = none := by
  induction cells with
  | nil => rfl
  | cons c cs ih => exact ih

/-- Invariant of the placement loop after the cells in `D` have been
processed (in order, without repetition). -/
structure SchedInv (origR origC : ℤ) (N : ℕ) (allowDups : Bool)
    (D : List (ℤ × ℤ)) (locs : ℤ × ℤ → Option (ℤ × ℝ))
    (placed : Finset ℤ) : Prop where
  dom : ∀ c, (locs c).isSome = true ↔ c ∈ D
  origMem : (-1 : ℤ) ∈ placed ↔ (origR, origC) ∈ D
  origVal : (origR, origC) ∈ D → locs (origR, origC) = some (-1, 0)
  recNonneg : ∀ c i d, locs c = some (i, d) → i ≠ -1 →
    0 ≤ i ∧ i < (N:ℤ) ∧ i ∈ placed
  recNeg : ∀ c i d, locs c = some (i, d) → i = -1 → c = (origR, origC)
  placedRec : ∀ i ∈ placed, i = -1 ∨
    (0 ≤ i ∧ i < (N:ℤ) ∧ ∃ c d, locs c = some (i, d))
  inj : allowDups = false → ∀ c1 c2 i d1 d2, locs c1 = some (i, d1) →
    locs c2 = some (i, d2) → 0 ≤ i → c1 = c2
  cardEq : allowDups = false → placed.card = D.length

theorem schedInv_init (origR origC : ℤ) (N : ℕ) (aD : Bool) :
    SchedInv origR origC N aD [] (fun _ => none) ∅ := by
  refine ⟨?_, ?_, ?_, ?_, ?_, ?_, ?_, ?_⟩ <;> simp

theorem cellStep_inv (origR origC : ℤ) (img : Img) (allowDups : Bool)
    (table : List CatalogEntry) (dim : ℕ) (D : List (ℤ × ℤ))
    (locs : ℤ × ℤ → Option (ℤ × ℝ)) (placed : Finset ℤ) (c : ℤ × ℤ)
    (hInv : SchedInv origR origC table.length allowDups D locs placed)
    (hc : c ∉ D) (locs' : ℤ × ℤ → Option (ℤ × ℝ)) (placed' : Finset ℤ)
    (hstep : placeBestTile origR origC img allowDups locs placed table dim c.1 c.2
      = some (locs', placed')) :
    SchedInv origR origC table.length allowDups (D ++ [c]) locs' placed' := by
  obtain ⟨cr, cc⟩ := c
  unfold placeBestTile at hstep
  simp only at hstep
  by_cases horig : cr = origR ∧ cc = origC
  · rw [if_pos horig] at hstep
    obtain ⟨rfl, rfl⟩ := horig
    simp only [Option.some.injEq, Prod.mk.injEq] at hstep
    obtain ⟨rfl, rfl⟩ := hstep
    have horigD : (cr, cc) ∉ D := hc
    refine ⟨?_, ?_, ?_, ?_, ?_, ?_, ?_, ?_⟩
    · intro c'
      rw [Function.update_apply]
      by_cases hcc : c' = (cr, cc)
      · subst hcc; simp
      · rw [if_neg hcc]
        rw [hInv.dom c']
        simp [hcc]
    · simp [hInv.origMem]
    · intro _
      rw [Function.update_apply, if_pos rfl]
    · intro c' i d hval hne
      rw [Function.update_apply] at hval
      by_cases hcc : c' = (cr, cc)
      · rw [if_pos hcc] at hval
        simp only [Option.some.injEq, Prod.mk.injEq] at hval
        exact absurd hval.1.symm hne
      · rw [if_neg hcc] at hval
        obtain ⟨h1, h2, h3⟩ := hInv.recNonneg c' i d hval hne
        exact ⟨h1, h2, Finset.mem_insert_of_mem h3⟩
    · intro c' i d hval hi
      rw [Function.update_apply] at hval
      by_cases hcc : c' = (cr, cc)
      · exact hcc
      · rw [if_neg hcc] at hval
        exact hInv.recNeg c' i d hval hi
    · intro i hi
      rcases Finset.mem_insert.mp hi with rfl | hi
      · exact Or.inl rfl
      · rcases hInv.placedRec i hi with h | ⟨h1, h2, c', d', hval⟩
        · exact Or.inl h
        · refine Or.inr ⟨h1, h2, c', d', ?_⟩
          rw [Function.update_apply, if_neg, hval]
          intro hcc
          subst hcc
          have := (hInv.dom (cr, cc)).mp (by rw [hval]; rfl)
          exact horigD this
    · intro hAD c1 c2 i d1 d2 hv1 hv2 hnn
      rw [Function.update_apply] at hv1 hv2
      by_cases h1 : c1 = (cr, cc) <;> by_cases h2 : c2 = (cr, cc)
      · rw [h1, h2]
      · rw [if_pos h1] at hv1
        simp only [Option.some.injEq, Prod.mk.injEq] at hv1
        omega
      · rw [if_pos h2] at hv2
        simp only [Option.some.injEq, Prod.mk.injEq] at hv2
        omega
      · rw [if_neg h1] at hv1
        rw [if_neg h2] at hv2
        exact hInv.inj hAD c1 c2 i d1 d2 hv1 hv2 hnn
    · intro hAD
      have hnotmem : (-1 : ℤ) ∉ placed := by
        rw [hInv.origMem]
        exact horigD
      rw [Finset.card_insert_of_not_mem hnotmem, hInv.cardEq hAD]
      simp
  · rw [if_neg horig] at hstep
    have hbest := fbFold_best (tileDist img table dim cr cc)
      (isCand allowDups placed) table.length
    rcases hfb : findBestTile img allowDups placed table dim cr cc with _ | ⟨i, d⟩
    · rw [hfb] at hstep
      cases hstep
    · rw [hfb] at hstep
      simp only [Option.some.injEq, Prod.mk.injEq] at hstep
      obtain ⟨rfl, rfl⟩ := hstep
      rcases hbest with ⟨hn, _⟩ | ⟨b, heq, hbmem, hcb, _, _⟩
      · unfold findBestTile at hfb
        rw [hn] at hfb
        cases hfb
      · unfold findBestTile at hfb
        rw [heq] at hfb
        simp only [Option.some.injEq, Prod.mk.injEq] at hfb
        obtain ⟨rfl, rfl⟩ := hfb
        have hbN : b < table.length := List.mem_range.mp hbmem
        have hne : (cr, cc) ≠ (origR, origC) := by
          intro hcc
          simp only [Prod.mk.injEq] at hcc
          exact horig hcc
        refine ⟨?_, ?_, ?_, ?_, ?_, ?_, ?_, ?_⟩
        · intro c'
          rw [Function.update_apply]
          by_cases hcc : c' = (cr, cc)
          · subst hcc; simp
          · rw [if_neg hcc, hInv.dom c']
            simp [hcc]
        · rw [Finset.mem_insert]
          have hb1 : (-1 : ℤ) ≠ (b:ℤ) := by omega
          simp only [List.mem_append, List.mem_singleton]
          rw [hInv.origMem]
          constructor
          · rintro (h | h)
            · exact absurd h hb1
            · exact Or.inl h
          · rintro (h | h)
            · exact Or.inr h
            · exact absurd h.symm hne
        · intro hD
          rcases List.mem_append.mp hD with hD | hD
          · rw [Function.update_apply, if_neg (by
              intro hcc
              exact hne (by rw [← hcc])), hInv.origVal hD]
          · simp only [List.mem_singleton] at hD
            exact absurd hD.symm hne
        · intro c' i d hval hne2
          rw [Function.update_apply] at hval
          by_cases hcc : c' = (cr, cc)
          · rw [if_pos hcc] at hval
            simp only [Option.some.injEq, Prod.mk.injEq] at hval
            obtain ⟨rfl, rfl⟩ := hval
            refine ⟨by omega, by omega, Finset.mem_insert_self _ _⟩
          · rw [if_neg hcc] at hval
            obtain ⟨h1, h2, h3⟩ := hInv.recNonneg c' i d hval hne2
            exact ⟨h1, h2, Finset.mem_insert_of_mem h3⟩
        · intro c' i d hval hi
          rw [Function.update_apply] at hval
          by_cases hcc : c' = (cr, cc)
          · rw [if_pos hcc] at hval
            simp only [Option.some.injEq, Prod.mk.injEq] at hval
            omega
          · rw [if_neg hcc] at hval
            exact hInv.recNeg c' i d hval hi
        · intro i hi
          rcases Finset.mem_insert.mp hi with rfl | hi
          · refine Or.inr ⟨by omega, by
              push_cast
              omega, (cr, cc), tileDist img table dim cr cc b, ?_⟩
            rw [Function.update_apply, if_pos rfl]
          · rcases hInv.placedRec i hi with h | ⟨h1, h2, c', d', hval⟩
            · exact Or.inl h
            · refine Or.inr ⟨h1, h2, c', d', ?_⟩
              rw [Function.update_apply, if_neg, hval]
              intro hcc
              subst hcc
              exact hc ((hInv.dom (cr, cc)).mp (by rw [hval]; rfl))
        · intro hAD c1 c2 i d1 d2 hv1 hv2 hnn
          have hbplaced : (b:ℤ) ∉ placed := by
            rcases hcb with h | h
            · rw [hAD] at h
              cases h
            · exact h
          rw [Function.update_apply] at hv1 hv2
          by_cases h1 : c1 = (cr, cc) <;> by_cases h2 : c2 = (cr, cc)
          · rw [h1, h2]
          · rw [if_pos h1] at hv1
            rw [if_neg h2] at hv2
            simp only [Option.some.injEq, Prod.mk.injEq] at hv1
            obtain ⟨rfl, -⟩ := hv1
            obtain ⟨-, -, h3⟩ := hInv.recNonneg c2 _ d2 hv2 (by omega)
            exact absurd h3 hbplaced
          · rw [if_pos h2] at hv2
            rw [if_neg h1] at hv1
            simp only [Option.some.injEq, Prod.mk.injEq] at hv2
            obtain ⟨rfl, -⟩ := hv2
            obtain ⟨-, -, h3⟩ := hInv.recNonneg c1 _ d1 hv1 (by omega)
            exact absurd h3 hbplaced
          · rw [if_neg h1] at hv1
            rw [if_neg h2] at hv2
            exact hInv.inj hAD c1 c2 i d1 d2 hv1 hv2 hnn
        · intro hAD
          have hbplaced : (b:ℤ) ∉ placed := by
            rcases hcb with h | h
            · rw [hAD] at h
              cases h
            · exact h
          rw [Finset.card_insert_of_not_mem hbplaced, hInv.cardEq hAD]
          simp

theorem processCells_inv (origR origC : ℤ) (img : Img) (allowDups : Bool)
    (table : List CatalogEntry) (dim : ℕ) (cells : List (ℤ × ℤ)) :
    ∀ (D : List (ℤ × ℤ)) (locs : ℤ × ℤ → Option (ℤ × ℝ)) (placed : Finset ℤ)
      (locs' : ℤ × ℤ → Option (ℤ × ℝ)) (placed' : Finset ℤ),
      SchedInv origR origC table.length allowDups D locs placed →
      (∀ c ∈ cells, c ∉ D) → cells.Nodup →
      processCells origR origC img allowDups table dim cells (some (locs, placed))
        = some (locs', placed') →
      SchedInv origR origC table.length allowDups (D ++ cells) locs' placed' := by
  induction cells with
  | nil =>
    intro D locs placed locs' placed' hInv _ _ hrun
    simp only [processCells, List.foldl_nil, Option.some.injEq, Prod.mk.injEq] at hrun
    obtain ⟨rfl, rfl⟩ := hrun
    simpa using hInv
  | cons c cs ih =>
    intro D locs placed locs' placed' hInv hfresh hnodup hrun
    simp only [processCells, List.foldl_cons] at hrun
    rcases hpb : placeBestTile origR origC img allowDups locs placed table dim c.1 c.2
      with _ | ⟨l1, p1⟩
    · rw [show cellStep origR origC img allowDups table dim (some (locs, placed)) c = none
        from by simp [cellStep, hpb]] at hrun
      have hnone := processCells_none origR origC img allowDups table dim cs
      simp only [processCells] at hnone
      rw [hnone] at hrun
      cases hrun
    · rw [show cellStep origR origC img allowDups table dim (some (locs, placed)) c
        = some (l1, p1) from by simp [cellStep, hpb]] at hrun
      have hInv1 := cellStep_inv origR origC img allowDups table dim D locs placed c
        hInv (hfresh c (List.mem_cons_self c cs)) l1 p1 hpb
      have hfresh1 : ∀ c' ∈ cs, c' ∉ D ++ [c] := by
        intro c' hc'
        simp only [List.mem_append, List.mem_singleton]
        rintro (h | h)
        · exact hfresh c' (List.mem_cons_of_mem _ hc') h
        · subst h
          exact (List.nodup_cons.mp hnodup).1 hc'
      have hres := ih (D ++ [c]) l1 p1 locs' placed' hInv1 hfresh1
        (List.nodup_cons.mp hnodup).2 (by simpa [processCells] using hrun)
      rw [List.append_assoc] at hres
      simpa using hres

theorem processCells_complete (origR origC : ℤ) (img : Img)
    (table : List CatalogEntry) (dim : ℕ) (cells : List (ℤ × ℤ)) :
    ∀ (D : List (ℤ × ℤ)) (locs : ℤ × ℤ → Option (ℤ × ℝ)) (placed : Finset ℤ),
      SchedInv origR origC table.length false D locs placed →
      (∀ c ∈ cells, c ∉ D) → cells.Nodup →
      (placed.erase (-1)).card
        + (cells.filter (fun c => decide (c ≠ (origR, origC)))).length
        ≤ table.length →
      ∃ locs' placed',
        processCells origR origC img false table dim cells (some (locs, placed))
          = some (locs', placed') := by
  induction cells with
  | nil =>
    intro D locs placed _ _ _ _
    exact ⟨locs, placed, rfl⟩
  | cons c cs ih =>
    intro D locs placed hInv hfresh hnodup hcard
    obtain ⟨cr, cc⟩ := c
    by_cases horig : (cr, cc) = (origR, origC)
    · simp only [Prod.mk.injEq] at horig
      obtain ⟨rfl, rfl⟩ := horig
      have hpb : placeBestTile cr cc img false locs placed table dim cr cc
          = some (Function.update locs (cr, cc) (some (-1, 0)),
              insert (-1) placed) := by
        unfold placeBestTile
        rw [if_pos ⟨rfl, rfl⟩]
      have hInv1 := cellStep_inv cr cc img false table dim D locs placed (cr, cc)
        hInv (hfresh _ (List.mem_cons_self _ _)) _ _ hpb
      have hneg : (-1 : ℤ) ∉ placed := by
        rw [hInv.origMem]
        exact hfresh _ (List.mem_cons_self _ _)
      have herase : (insert (-1) placed).erase (-1) = placed.erase (-1) := by
        rw [Finset.erase_insert hneg, Finset.erase_eq_of_not_mem hneg]
      have hfresh1 : ∀ c' ∈ cs, c' ∉ D ++ [(cr, cc)] := by
        intro c' hc'
        simp only [List.mem_append, List.mem_singleton]
        rintro (h | h)
        · exact hfresh c' (List.mem_cons_of_mem _ hc') h
        · subst h
          exact (List.nodup_cons.mp hnodup).1 hc'
      have hcard1 : ((insert (-1) placed).erase (-1)).card
          + (cs.filter (fun c => decide (c ≠ (cr, cc)))).length ≤ table.length := by
        rw [herase]
        have : ((cr, cc) :: cs).filter (fun c => decide (c ≠ (cr, cc)))
            = cs.filter (fun c => decide (c ≠ (cr, cc))) := by
          rw [List.filter_cons, if_neg (by simp)]
        rw [this] at hcard
        exact hcard
      obtain ⟨locs', placed', hrun⟩ := ih (D ++ [(cr, cc)]) _ _ hInv1 hfresh1
        (List.nodup_cons.mp hnodup).2 hcard1
      refine ⟨locs', placed', ?_⟩
      simp only [processCells, List.foldl_cons]
      rw [show cellStep cr cc img false table dim (some (locs, placed)) (cr, cc)
        = some (Function.update locs (cr, cc) (some (-1, 0)), insert (-1) placed)
        from by simp [cellStep, hpb]]
      simpa [processCells] using hrun
    · have havail : ∃ i, i < table.length ∧ isCand false placed i := by
        by_contra hno
        push_neg at hno
        have hmem : ∀ i : ℕ, i < table.length → (i:ℤ) ∈ placed := by
          intro i hi
          have := hno i hi
          unfold isCand at this
          push_neg at this
          exact this.2
        have hsub : (Finset.range table.length).image (fun i : ℕ => (i:ℤ))
            ⊆ placed.erase (-1) := by
          intro z hz
          simp only [Finset.mem_image, Finset.mem_range] at hz
          obtain ⟨i, hi, rfl⟩ := hz
          exact Finset.mem_erase.mpr ⟨by omega, hmem i hi⟩
        have hcard2 : table.length ≤ (placed.erase (-1)).card := by
          have h1 : ((Finset.range table.length).image (fun i : ℕ => (i:ℤ))).card
              = table.length := by
            rw [Finset.card_image_of_injective _
              (fun a b h => by exact_mod_cast h)]
            exact Finset.card_range _
          rw [← h1]
          exact Finset.card_le_card hsub
        have hlen : 1 ≤ (((cr, cc) :: cs).filter
            (fun c => decide (c ≠ (origR, origC)))).length := by
          rw [List.filter_cons, if_pos (by rw [decide_eq_true_eq]; exact horig)]
          simp
        omega
      have hbest := fbFold_best (tileDist img table dim cr cc)
        (isCand false placed) table.length
      rcases hbest with ⟨hn, hno⟩ | ⟨b, heq, hbmem, hcb, _, _⟩
      · obtain ⟨i, hi, hci⟩ := havail
        exact absurd hci (hno i (List.mem_range.mpr hi))
      · have hnotpair : ¬(cr = origR ∧ cc = origC) := by
          intro h
          exact horig (by rw [h.1, h.2])
        have hpb : placeBestTile origR origC img false locs placed table dim cr cc
            = some (Function.update locs (cr, cc)
                (some ((b:ℤ), tileDist img table dim cr cc b)),
              insert ((b:ℤ)) placed) := by
          unfold placeBestTile
          rw [if_neg hnotpair]
          unfold findBestTile
          rw [heq]
        have hInv1 := cellStep_inv origR origC img false table dim D locs placed
          (cr, cc) hInv (hfresh _ (List.mem_cons_self _ _)) _ _ hpb
        have hfresh1 : ∀ c' ∈ cs, c' ∉ D ++ [(cr, cc)] := by
          intro c' hc'
          simp only [List.mem_append, List.mem_singleton]
          rintro (h | h)
          · exact hfresh c' (List.mem_cons_of_mem _ hc') h
          · subst h
            exact (List.nodup_cons.mp hnodup).1 hc'
        have hcard1 : ((insert ((b:ℤ)) placed).erase (-1)).card
            + (cs.filter (fun c => decide (c ≠ (origR, origC)))).length
            ≤ table.length := by
          have hlen : (((cr, cc) :: cs).filter
              (fun c => decide (c ≠ (origR, origC)))).length
              = (cs.filter (fun c => decide (c ≠ (origR, origC)))).length + 1 := by
            rw [List.filter_cons, if_pos (by rw [decide_eq_true_eq]; exact horig)]
            simp [Nat.add_comm]
          have hb1 : ((b:ℤ)) ≠ (-1 : ℤ) := by omega
          have : (insert ((b:ℤ)) placed).erase (-1)
              = insert ((b:ℤ)) (placed.erase (-1)) :=
            Finset.erase_insert_of_ne hb1
          rw [this]
          have := Finset.card_insert_le ((b:ℤ)) (placed.erase (-1))
          omega
        obtain ⟨locs', placed', hrun⟩ := ih (D ++ [(cr, cc)]) _ _ hInv1 hfresh1
          (List.nodup_cons.mp hnodup).2 hcard1
        refine ⟨locs', placed', ?_⟩
        simp only [processCells, List.foldl_cons]
        rw [show cellStep origR origC img false table dim (some (locs, placed)) (cr, cc)
          = some (Function.update locs (cr, cc)
              (some ((b:ℤ), tileDist img table dim cr cc b)),
            insert ((b:ℤ)) placed)
          from by simp [cellStep, hpb]]
        simpa [processCells] using hrun

theorem nodup_of_count_le_one (l : List (ℤ × ℤ)) (h : ∀ a, l.count a ≤ 1) :
    l.Nodup := by
  induction l with
  | nil => exact List.nodup_nil
  | cons a t ih =>
    rw [List.nodup_cons]
    constructor
    · have ha := h a
      rw [List.count_cons_self] at ha
      rw [← List.count_eq_zero (l := t) (a := a)]
      omega
    · apply ih
      intro x
      have hx := h x
      rw [List.count_cons] at hx
      by_cases hax : (a == x) = true
      · rw [if_pos hax] at hx
        omega
      · rw [if_neg hax] at hx
        omega

theorem acceptedCells_nodup (XD YD : ℕ) (hX : 1 ≤ XD) (hY : 1 ≤ YD) :
    (acceptedCells XD YD).Nodup := by
  apply nodup_of_count_le_one
  intro q
  obtain ⟨qr, qc⟩ := q
  by_cases hgrid : 0 ≤ qr ∧ qr < YD ∧ 0 ≤ qc ∧ qc < XD
  · have := acceptedCells_count XD YD qr qc hgrid.1 hgrid.2.1 hgrid.2.2.1 hgrid.2.2.2
    omega
  · have hnot : (qr, qc) ∉ acceptedCells XD YD := by
      intro hmem
      exact hgrid (acceptedCells_mem XD YD (qr, qc) hmem)
    rw [List.count_eq_zero.mpr hnot]
    omega

theorem acceptedCells_mem_of_grid (XD YD : ℕ) (r c : ℤ)
    (hr0 : 0 ≤ r) (hr1 : r < YD) (hc0 : 0 ≤ c) (hc1 : c < XD) :
    (r, c) ∈ acceptedCells XD YD := by
  by_contra hnot
  have := List.count_eq_zero.mpr hnot
  have h1 := acceptedCells_count XD YD r c hr0 hr1 hc0 hc1
  omega

theorem acceptedCells_length (XD YD : ℕ) (hX : 1 ≤ XD) (hY : 1 ≤ YD) :
    (acceptedCells XD YD).length = YD * XD := by
  have hnd := acceptedCells_nodup XD YD hX hY
  rw [← List.toFinset_card_of_nodup hnd]
  have hset : (acceptedCells XD YD).toFinset
      = (Finset.Ico (0:ℤ) (YD:ℤ)) ×ˢ (Finset.Ico (0:ℤ) (XD:ℤ)) := by
    apply Finset.ext
    intro q
    rw [List.mem_toFinset, Finset.mem_product, Finset.mem_Ico, Finset.mem_Ico]
    constructor
    · intro hq
      have := acceptedCells_mem XD YD q hq
      exact ⟨⟨this.1, this.2.1⟩, ⟨this.2.2.1, this.2.2.2⟩⟩
    · rintro ⟨⟨h1, h2⟩, h3, h4⟩
      have := acceptedCells_mem_of_grid XD YD q.1 q.2 h1 h2 h3 h4
      simpa using this
  rw [hset, Finset.card_product, Int.card_Ico, Int.card_Ico]
  simp

/-- Claim C10: whenever the reserved origin cell lies within the grid,
scheduling records the sentinel index `-1` for that cell and adds `-1` to
the used set, so the `tilesUsedCount` returned by the scheduler equals the
number of distinct catalog tiles placed plus one; the used set is not a
subset of valid catalog indices. -/
theorem placeSpiral_sentinel (img : Img) (XD YD : ℕ) (origR origC : ℤ)
    (table : List CatalogEntry) (dim : ℕ) (allowDups : Bool)
    (locs : ℤ × ℤ → Option (ℤ × ℝ)) (placed : Finset ℤ)
    (hX : 1 ≤ XD) (hY : 1 ≤ YD)
    (hoR : 0 ≤ origR) (hoR2 : origR < YD) (hoC : 0 ≤ origC) (hoC2 : origC < XD)
    (hrun : spiralFold img origR origC XD YD table dim allowDups
      = some (locs, placed)) :
    locs (origR, origC) = some (-1, 0) ∧
    (-1 : ℤ) ∈ placed ∧
    placeSpiral img origR origC XD YD table dim allowDups
      = some (locs, placed.card) ∧
    placed.card = (placed.erase (-1)).card + 1 ∧
    (∀ i ∈ placed.erase (-1),
      0 ≤ i ∧ i < (table.length:ℤ) ∧ ∃ c d, locs c = some (i, d)) := by
  rw [spiralFold_eq_processCells] at hrun
  have hInv := processCells_inv origR origC img allowDups table dim
    (acceptedCells XD YD) [] (fun _ => none) ∅ locs placed
    (schedInv_init origR origC table.length allowDups)
    (by simp) (acceptedCells_nodup XD YD hX hY) hrun
  rw [List.nil_append] at hInv
  have horigmem : (origR, origC) ∈ acceptedCells XD YD :=
    acceptedCells_mem_of_grid XD YD origR origC hoR hoR2 hoC hoC2
  have h1 : locs (origR, origC) = some (-1, 0) := hInv.origVal horigmem
  have h2 : (-1 : ℤ) ∈ placed := hInv.origMem.mpr horigmem
  refine ⟨h1, h2, ?_, ?_, ?_⟩
  · unfold placeSpiral
    rw [spiralFold_eq_processCells, hrun]
    rfl
  · have := Finset.card_erase_add_one h2
    omega
  · intro i hi
    rw [Finset.mem_erase] at hi
    rcases hInv.placedRec i hi.2 with h | h
    · exact absurd h hi.1
    · exact h

/-- A one-entry colour table. -/
def tableOne : List CatalogEntry := [("t", ([0], [0], [0]))]

/-- Witness for C10: the concrete 1 x 1 run places the original image at
cell (0,0) and returns used count 1. -/
theorem placeSpiral_sentinel_witness :
    (Function.update (fun _ => none) ((0:ℤ), (0:ℤ)) (some ((-1:ℤ), (0:ℝ))))
        ((0:ℤ), (0:ℤ)) = some (-1, 0) ∧
    (-1 : ℤ) ∈ (insert (-1) (∅ : Finset ℤ)) ∧
    placeSpiral imgZero 0 0 1 1 tableOne 1 true
      = some (Function.update (fun _ => none) ((0:ℤ), (0:ℤ))
          (some ((-1:ℤ), (0:ℝ))), (insert (-1) (∅ : Finset ℤ)).card) := by
  have h := placeSpiral_sentinel imgZero 1 1 0 0 tableOne 1 true
    (Function.update (fun _ => none) ((0:ℤ), (0:ℤ)) (some ((-1:ℤ), (0:ℝ))))
    (insert (-1) (∅ : Finset ℤ))
    (by norm_num) (by norm_num) (by norm_num) (by norm_num) (by norm_num)
    (by norm_num) rfl
  exact ⟨h.1, h.2.1, h.2.2.1⟩

/-- Claim C2 (amended): for a catalog of `N` tiles and a grid of exactly
`N` cells with duplicates disallowed and the reserved origin cell inside
the grid (as in every run of this program), scheduling completes; the
origin cell records the sentinel `-1`, every other cell records a
distinct catalog index, and the recorded catalog indices are `N - 1`
distinct values in `0..N-1` — exactly one catalog tile is left unused. -/
theorem placeSpiral_no_dups_injective (img : Img) (XD YD : ℕ) (origR origC : ℤ)
    (table : List CatalogEntry) (dim : ℕ)
    (hX : 1 ≤ XD) (hY : 1 ≤ YD) (hN : table.length = XD * YD)
    (hoR : 0 ≤ origR) (hoR2 : origR < YD) (hoC : 0 ≤ origC) (hoC2 : origC < XD) :
    ∃ locs placed,
      spiralFold img origR origC XD YD table dim false = some (locs, placed) ∧
      placeSpiral img origR origC XD YD table dim false
        = some (locs, placed.card) ∧
      locs (origR, origC) = some (-1, 0) ∧
      (-1 : ℤ) ∈ placed ∧
      (∀ r c : ℤ, 0 ≤ r → r < YD → 0 ≤ c → c < XD →
        (locs (r, c)).isSome = true) ∧
      (∀ c1 c2 i d1 d2, locs c1 = some (i, d1) → locs c2 = some (i, d2) →
        0 ≤ i → c1 = c2) ∧
      (∀ i ∈ placed.erase (-1),
        0 ≤ i ∧ i < (table.length:ℤ) ∧ ∃ c d, locs c = some (i, d)) ∧
      (placed.erase (-1)).card = table.length - 1 := by
  have hnd := acceptedCells_nodup XD YD hX hY
  have hlen := acceptedCells_length XD YD hX hY
  obtain ⟨locs, placed, hrun⟩ := processCells_complete origR origC img table dim
    (acceptedCells XD YD) [] (fun _ => none) ∅
    (schedInv_init origR origC table.length false)
    (by simp) hnd
    (by
      have h1 := List.length_filter_le
        (fun c => decide (c ≠ (origR, origC))) (acceptedCells XD YD)
      have h2 : XD * YD = YD * XD := Nat.mul_comm XD YD
      simp only [Finset.erase_empty, Finset.card_empty, Nat.zero_add]
      omega)
  have hInv := processCells_inv origR origC img false table dim
    (acceptedCells XD YD) [] (fun _ => none) ∅ locs placed
    (schedInv_init origR origC table.length false)
    (by simp) hnd hrun
  rw [List.nil_append] at hInv
  have horigmem : (origR, origC) ∈ acceptedCells XD YD :=
    acceptedCells_mem_of_grid XD YD origR origC hoR hoR2 hoC hoC2
  have hm1 : (-1 : ℤ) ∈ placed := hInv.origMem.mpr horigmem
  have hcard : placed.card = XD * YD := by
    rw [hInv.cardEq rfl, hlen, Nat.mul_comm]
  refine ⟨locs, placed, ?_, ?_, hInv.origVal horigmem, hm1, ?_, ?_, ?_, ?_⟩
  · rw [spiralFold_eq_processCells]
    exact hrun
  · unfold placeSpiral
    rw [spiralFold_eq_processCells, hrun]
    rfl
  · intro r c hr0 hr1 hc0 hc1
    exact (hInv.dom (r, c)).mpr (acceptedCells_mem_of_grid XD YD r c hr0 hr1 hc0 hc1)
  · exact hInv.inj rfl
  · intro i hi
    rw [Finset.mem_erase] at hi
    rcases hInv.placedRec i hi.2 with h | h
    · exact absurd h hi.1
    · exact h
  · have := Finset.card_erase_add_one hm1
    omega

/-- Counterexample for C2 as stated: with one catalog tile and a 1 x 1
grid (the program always reserves an in-grid origin cell, here (0,0)),
scheduling completes but no catalog index at all is recorded — the used
set is exactly `{-1}`, so catalog tile 0 does not appear in the
Placement, and the claimed bijection with the catalog indices fails. -/
theorem placeSpiral_no_dups_bijection_cx :
    spiralFold imgZero 0 0 1 1 tableOne 1 false
      = some (Function.update (fun _ => none) ((0:ℤ), (0:ℤ))
          (some ((-1:ℤ), (0:ℝ))), insert (-1) (∅ : Finset ℤ)) ∧
    (0:ℤ) ∉ (insert (-1) (∅ : Finset ℤ)) ∧
    tableOne.length = 1 * 1 := by
  refine ⟨rfl, by decide, rfl⟩

/-- Witness for C2 (amended) at the concrete 1 x 1 grid with a one-entry
catalog. -/
theorem placeSpiral_no_dups_injective_witness :
    (placeSpiral imgZero 0 0 1 1 tableOne 1 false).isSome = true := by
  obtain ⟨locs, placed, -, hps, -⟩ := placeSpiral_no_dups_injective imgZero 1 1 0 0
    tableOne 1 (by norm_num) (by norm_num) (by norm_num [tableOne])
    (by norm_num) (by norm_num) (by norm_num) (by norm_num)
  rw [hps]
  rfl

/-! ## The grid colour summarizer (`colours`, `src/catalog.py` lines 36-67)

The nested loops run `x` over the width subdivisions (outer) and `y` over
the height subdivisions (inner), so section `s` (0-based, in emission
order) has `x = s / d` and `y = s % d`.  Each section sums the pixels
`(i + int(x*width/dim), j + int(y*height/dim))` for `i < int(width/dim)`,
`j < int(height/dim)` and divides by the pixel count `count`, rounding
half to even.  When `dim >= 1` and `int(width/dim) * int(height/dim) == 0`
the division by `count = 0` raises `ZeroDivisionError`: modelled as
`none`.  `dim = 0` runs no loops and returns empty lists. -/

/-- The pixel sum of one section of `colours`. -/
def cellSum (f : ℕ → ℕ → ℤ) (w h d x y : ℕ) : ℤ :=
  ∑ i ∈ Finset.range (w / d), ∑ j ∈ Finset.range (h / d),
    f (i + x * w / d) (j + y * h / d)

/-- `colours` (lines 36-67). -/
def colours (img : ℕ → ℕ → RGB) (w h d : ℕ) :
    Option (List ℤ × List ℤ × List ℤ) :=
  if d ≠ 0 ∧ (w / d) * (h / d) = 0 then none
  else some (
    (List.range (d * d)).map (fun s =>
      pyround ((cellSum (fun x y => (img x y).1) w h d (s / d) (s % d) : ℚ)
        / (((w / d) * (h / d) : ℕ) : ℚ))),
    (List.range (d * d)).map (fun s =>
      pyround ((cellSum (fun x y => (img x y).2.1) w h d (s / d) (s % d) : ℚ)
        / (((w / d) * (h / d) : ℕ) : ℚ))),
    (List.range (d * d)).map (fun s =>
      pyround ((cellSum (fun x y => (img x y).2.2) w h d (s / d) (s % d) : ℚ)
        / (((w / d) * (h / d) : ℕ) : ℚ))))

theorem div_add_div_le_add_div (a b d : ℕ) : a / d + b / d ≤ (a + b) / d := by
  rcases Nat.eq_zero_or_pos d with rfl | hd
  · simp
  · rw [Nat.le_div_iff_mul_le hd, Nat.add_mul]
    exact Nat.add_le_add (Nat.div_mul_le_self a d) (Nat.div_mul_le_self b d)

/-- Pixels read by section column `x < d` are within the image width. -/
theorem span_le (w d x : ℕ) (hx : x < d) : x * w / d + w / d ≤ w := by
  rcases Nat.eq_zero_or_pos d with rfl | hd
  · simp
  · have h1 : x * w / d + w / d ≤ (x * w + w) / d := div_add_div_le_add_div _ _ _
    rw [show x * w + w = (x + 1) * w by ring] at h1
    have h3 : (x + 1) * w ≤ d * w := Nat.mul_le_mul_right w (by omega)
    have h4 : (x + 1) * w / d ≤ d * w / d := Nat.div_le_div_right h3
    have h5 : d * w / d = w := Nat.mul_div_cancel_left w hd
    omega

theorem cellSum_const (w h d x y : ℕ) (c : ℤ) (img : ℕ → ℕ → ℤ)
    (hx : x < d) (hy : y < d)
    (himg : ∀ a b, a < w → b < h → img a b = c) :
    cellSum img w h d x y = ((w / d) * (h / d) : ℕ) * c := by
  unfold cellSum
  have hpix : ∀ i ∈ Finset.range (w / d), ∀ j ∈ Finset.range (h / d),
      img (i + x * w / d) (j + y * h / d) = c := by
    intro i hi j hj
    rw [Finset.mem_range] at hi hj
    apply himg
    · have := span_le w d x hx
      omega
    · have := span_le h d y hy
      omega
  rw [Finset.sum_congr rfl (fun i hi => Finset.sum_congr rfl (fun j hj => hpix i hi j hj))]
  simp [Finset.sum_const, Finset.card_range, mul_assoc]

/-- Claim C7 (amended): for every square image of uniform colour `C` with
side `s` and every grid dimension `d` with `1 <= d <= s`, the summarizer
returns `d^2` cells each exactly equal to `C`.  (For `d > s` the code
divides by a zero pixel count and the run aborts; see the
counterexample.) -/
theorem colours_uniform (img : ℕ → ℕ → RGB) (s d : ℕ) (cr cg cb : ℤ)
    (himg : ∀ x y, x < s → y < s → img x y = (cr, cg, cb))
    (hd : 1 ≤ d) (hds : d ≤ s) :
    colours img s s d = some (List.replicate (d*d) cr,
      List.replicate (d*d) cg, List.replicate (d*d) cb) := by
  have hcount : 1 ≤ (s / d) * (s / d) := by
    have := (Nat.one_le_div_iff (by omega : 0 < d)).mpr hds
    exact Nat.one_le_iff_ne_zero.mpr (by positivity)
  unfold colours
  rw [if_neg (by omega)]
  have hval : ∀ (f : ℕ → ℕ → ℤ) (c : ℤ),
      (∀ a b, a < s → b < s → f a b = c) →
      ∀ q ∈ List.range (d * d),
        pyround ((cellSum f s s d (q / d) (q % d) : ℚ)
          / (((s / d) * (s / d) : ℕ) : ℚ)) = c := by
    intro f c hf q hq
    rw [List.mem_range] at hq
    have hx : q / d < d := (Nat.div_lt_iff_lt_mul (by omega)).mpr (by omega)
    have hy : q % d < d := Nat.mod_lt q (by omega)
    rw [cellSum_const s s d (q / d) (q % d) c f hx hy hf]
    have hne : (((s / d) * (s / d) : ℕ) : ℚ) ≠ 0 := by
      exact_mod_cast (by omega : ((s / d) * (s / d) : ℕ) ≠ 0)
    rw [show ((((s / d) * (s / d) : ℕ) * c : ℤ) : ℚ)
        = (((s / d) * (s / d) : ℕ) : ℚ) * (c : ℚ) by
          rw [Int.cast_mul, Int.cast_natCast]]
    rw [mul_div_cancel_left₀ (c : ℚ) hne]
    exact pyround_intCast c
  rw [List.map_congr_left (hval (fun x y => (img x y).1) cr
      (fun a b ha hb => by simp [himg a b ha hb]))]
  rw [List.map_congr_left (hval (fun x y => (img x y).2.1) cg
      (fun a b ha hb => by simp [himg a b ha hb]))]
  rw [List.map_congr_left (hval (fun x y => (img x y).2.2) cb
      (fun a b ha hb => by simp [himg a b ha hb]))]
  rw [List.map_const', List.map_const', List.map_const', List.length_range]

/-- Counterexample for C7 as stated: on a uniform white 1 x 1 image with
grid dimension `d = 2 >= 1`, `colours` divides by a zero pixel count
(`ZeroDivisionError`) instead of returning `d^2` copies of the colour. -/
theorem colours_uniform_cx :
    colours (fun _ _ => ((255:ℤ), (255:ℤ), (255:ℤ))) 1 1 2 = none ∧
    colours (fun _ _ => ((255:ℤ), (255:ℤ), (255:ℤ))) 1 1 2
      ≠ some (List.replicate (2*2) 255, List.replicate (2*2) 255,
          List.replicate (2*2) 255) := by
  constructor
  · rfl
  · intro h
    cases h

/-- Witness for C7 (amended) on a concrete uniform 2 x 2 image. -/
theorem colours_uniform_witness :
    colours (fun _ _ => ((9:ℤ), (8:ℤ), (7:ℤ))) 2 2 2
      = some (List.replicate (2*2) 9, List.replicate (2*2) 8,
          List.replicate (2*2) 7) :=
  colours_uniform (fun _ _ => ((9:ℤ), (8:ℤ), (7:ℤ))) 2 2 9 8 7
    (fun _ _ _ _ => rfl) (by norm_num) (by norm_num)

/-- A pixel column `col` is read by some section of `colours`: some
width-subdivision `x < d` has `int(x*w/d) <= col < int(x*w/d) + int(w/d)`
(and symmetrically for rows). -/
def covered (w d col : ℕ) : Prop :=
  ∃ x, x < d ∧ x * w / d ≤ col ∧ col < x * w / d + w / d

instance (w d col : ℕ) : Decidable (covered w d col) := by
  unfold covered; infer_instance

theorem covered_lt (w d col : ℕ) (h : covered w d col) : col < w := by
  obtain ⟨x, hx, h1, h2⟩ := h
  have := span_le w d x hx
  omega

theorem spans_ordered (w d x1 x2 : ℕ) (h12 : x1 < x2) :
    x1 * w / d + w / d ≤ x2 * w / d := by
  have h1 : x1 * w / d + w / d ≤ (x1 * w + w) / d := div_add_div_le_add_div _ _ _
  rw [show x1 * w + w = (x1 + 1) * w by ring] at h1
  have h3 : (x1 + 1) * w ≤ x2 * w := Nat.mul_le_mul_right w (by omega)
  have h4 : (x1 + 1) * w / d ≤ x2 * w / d := Nat.div_le_div_right h3
  omega

/-- Claim C8 (amended): each section of the summarizer sums exactly the
pixels of its integer-truncated span `[int(x*w/d), int(x*w/d)+int(w/d))`;
distinct sections never overlap; exactly `d * int(w/d)` columns are
covered (so `w mod d` columns are omitted when `d` does not divide `w`);
and when `d` divides `w` no column is omitted.  However the omitted
columns are NOT always the final ones: truncation can skip interior
columns (see the counterexample). -/
theorem colours_truncation (w h d : ℕ) (hd : 1 ≤ d) :
    (∀ (f : ℕ → ℕ → ℤ) (x y : ℕ),
      cellSum f w h d x y
        = ∑ i ∈ Finset.Ico (x * w / d) (x * w / d + w / d),
            ∑ j ∈ Finset.Ico (y * h / d) (y * h / d + h / d), f i j) ∧
    (∀ x1 x2 col, x1 < x2 → x2 < d →
      ¬(x1 * w / d ≤ col ∧ col < x1 * w / d + w / d ∧
        x2 * w / d ≤ col ∧ col < x2 * w / d + w / d)) ∧
    ((Finset.range w).filter (fun col => covered w d col)).card = d * (w / d) ∧
    (d ∣ w → ∀ col, col < w → covered w d col) := by
  refine ⟨?_, ?_, ?_, ?_⟩
  · intro f x y
    unfold cellSum
    rw [Finset.sum_Ico_eq_sum_range]
    rw [show x * w / d + w / d - x * w / d = w / d from Nat.add_sub_cancel_left _ _]
    apply Finset.sum_congr rfl
    intro i _
    rw [Finset.sum_Ico_eq_sum_range]
    rw [show y * h / d + h / d - y * h / d = h / d from Nat.add_sub_cancel_left _ _]
    apply Finset.sum_congr rfl
    intro j _
    rw [Nat.add_comm (x * w / d) i, Nat.add_comm (y * h / d) j]
  · intro x1 x2 col h12 hx2 hcol
    have := spans_ordered w d x1 x2 h12
    omega
  · have hset : (Finset.range w).filter (fun col => covered w d col)
        = (Finset.range d).biUnion
            (fun x => Finset.Ico (x * w / d) (x * w / d + w / d)) := by
      apply Finset.ext
      intro col
      rw [Finset.mem_filter, Finset.mem_range, Finset.mem_biUnion]
      constructor
      · rintro ⟨hcol, x, hx, h1, h2⟩
        exact ⟨x, Finset.mem_range.mpr hx, Finset.mem_Ico.mpr ⟨h1, h2⟩⟩
      · rintro ⟨x, hx, hmem⟩
        rw [Finset.mem_range] at hx
        rw [Finset.mem_Ico] at hmem
        have hc : covered w d col := ⟨x, hx, hmem.1, hmem.2⟩
        exact ⟨covered_lt w d col hc, hc⟩
    have hdisj : ∀ x1 ∈ Finset.range d, ∀ x2 ∈ Finset.range d, x1 ≠ x2 →
        Disjoint (Finset.Ico (x1 * w / d) (x1 * w / d + w / d))
          (Finset.Ico (x2 * w / d) (x2 * w / d + w / d)) := by
      intro x1 _ x2 _ hne
      rw [Finset.disjoint_left]
      intro col hc1 hc2
      rw [Finset.mem_Ico] at hc1 hc2
      rcases Nat.lt_or_ge x1 x2 with h12 | h21
      · have := spans_ordered w d x1 x2 h12
        omega
      · have h12 : x2 < x1 := by omega
        have := spans_ordered w d x2 x1 h12
        omega
    rw [hset, Finset.card_biUnion hdisj]
    have hcard : ∀ x ∈ Finset.range d,
        (Finset.Ico (x * w / d) (x * w / d + w / d)).card = w / d := by
      intro x _
      rw [Nat.card_Ico]
      exact Nat.add_sub_cancel_left _ _
    rw [Finset.sum_congr rfl hcard, Finset.sum_const, Finset.card_range,
      smul_eq_mul]
  · rintro ⟨q, rfl⟩ col hcol
    rcases Nat.eq_zero_or_pos q with rfl | hq
    · omega
    · have he : ∀ x : ℕ, x * (d * q) / d = x * q := by
        intro x
        rw [show x * (d * q) = d * (x * q) by ring,
          Nat.mul_div_cancel_left _ (by omega : 0 < d)]
      refine ⟨col / q, ?_, ?_, ?_⟩
      · exact (Nat.div_lt_iff_lt_mul hq).mpr (by omega)
      · rw [he]
        exact Nat.div_mul_le_self col q
      · rw [he, show (d * q) / d = q from Nat.mul_div_cancel_left q (by omega)]
        have h1 := Nat.div_add_mod' col q
        have h2 := Nat.mod_lt col hq
        omega

/-- Counterexample for C8 as stated: with `w = 10`, `d = 4`, the interior
column 4 is read by no section even though it is not among the final
`w mod d` columns (`4 < 10 - 10 % 4 = 8`); conversely column 8 of the
final segment IS read. -/
theorem colours_truncation_cx :
    ¬ covered 10 4 4 ∧ 4 < 10 - 10 % 4 ∧ covered 10 4 8 := by
  decide

/-- Witness for C8 (amended) at `w = 10`, `h = 10`, `d = 4`: the covered
column count is `4 * (10 / 4) = 8`. -/
theorem colours_truncation_witness :
    ((Finset.range 10).filter (fun col => covered 10 4 col)).card = 4 * (10 / 4) :=
  (colours_truncation 10 10 4 (by norm_num)).2.2.1

/-! ## The similarity metric (`metric`, `src/mosaic.py` lines 326-367)

`metric(original, mosaic)` first resizes the original to the mosaic's
pixel size (PIL `resize`, an external collaborator) after asserting that
the original does not exceed the mosaic in either axis; the pixel-by-pixel
comparison below is modelled on the two equal-sized pixel grids that
result.  `mosaic` then reports `(1 - avg) * 100` (line 665).  Note the
normalisation factor in the code is `sqrt(3 * 256 * 256)` (line 341). -/

/-- Per-pixel straight-line RGB distance (lines 351-354). -/
noncomputable def pixDist (p q : RGB) : ℝ :=
  Real.sqrt ((((|p.1 - q.1|) * (|p.1 - q.1|)
    + (|p.2.1 - q.2.1|) * (|p.2.1 - q.2.1|)
    + (|p.2.2 - q.2.2|) * (|p.2.2 - q.2.2|) : ℤ) : ℝ))

/-- The loop of `metric` (lines 343-365): pixels at distance zero add
nothing, others add their distance divided by `sqrt(3 * 256 * 256)`; the
total is divided by the pixel count. -/
noncomputable def metricAvg (W H : ℕ) (o m : ℕ → ℕ → RGB) : ℝ :=
  (∑ x ∈ Finset.range W, ∑ y ∈ Finset.range H,
    (if pixDist (o x y) (m x y) = 0 then 0
     else pixDist (o x y) (m x y) / Real.sqrt (3 * 256 * 256))) / ((W * H : ℕ) : ℝ)

/-- The reported percentage (line 665): `(1 - metricAvg) * 100`. -/
noncomputable def metricPercent (W H : ℕ) (o m : ℕ → ℕ → RGB) : ℝ :=
  (1 - metricAvg W H o m) * 100

/-- Modelled from the claim's words (spec section 4.8): the average over
all mosaic pixels of the per-pixel Euclidean RGB distance divided by
`sqrt(3 * 255^2)`.  Written only for comparison with `metricAvg`. -/
noncomputable def metricAvgSpec (W H : ℕ) (o m : ℕ → ℕ → RGB) : ℝ :=
  (∑ x ∈ Finset.range W, ∑ y ∈ Finset.range H,
    pixDist (o x y) (m x y) / Real.sqrt (3 * 255^2)) / ((W * H : ℕ) : ℝ)

theorem pixDist_self (p : RGB) : pixDist p p = 0 := by
  unfold pixDist
  simp

theorem pixDist_nonneg (p q : RGB) : 0 ≤ pixDist p q := Real.sqrt_nonneg _

/-- Counterexample for C5 as stated: on the 1 x 1 white source and black
mosaic, the code's percentage (normalised by `sqrt(3*256^2)`) differs
from the claimed formula (normalised by `sqrt(3*255^2)`), which gives
exactly 0 here. -/
theorem metric_normalisation_cx :
    metricPercent 1 1 (fun _ _ => ((255:ℤ), 255, 255)) (fun _ _ => (0, 0, 0))
      ≠ (1 - metricAvgSpec 1 1 (fun _ _ => ((255:ℤ), 255, 255))
          (fun _ _ => (0, 0, 0))) * 100 := by
  have hp : pixDist ((255:ℤ), 255, 255) (0, 0, 0) = Real.sqrt 195075 := by
    unfold pixDist
    norm_num
  have hlt : Real.sqrt 195075 < Real.sqrt 196608 :=
    Real.sqrt_lt_sqrt (by norm_num) (by norm_num)
  have hpos : (0:ℝ) < Real.sqrt 195075 := Real.sqrt_pos.mpr (by norm_num)
  have hpos2 : (0:ℝ) < Real.sqrt 196608 := Real.sqrt_pos.mpr (by norm_num)
  unfold metricPercent metricAvg metricAvgSpec
  rw [Finset.sum_range_one, Finset.sum_range_one, Finset.sum_range_one,
    Finset.sum_range_one]
  rw [hp, if_neg (ne_of_gt hpos)]
  rw [show ((3:ℝ) * 256 * 256) = 196608 by norm_num,
    show ((3:ℝ) * 255^2) = 195075 by norm_num]
  rw [div_self (ne_of_gt hpos)]
  have hq : Real.sqrt 195075 / Real.sqrt 196608 < 1 :=
    (div_lt_one hpos2).mpr hlt
  have hq0 : 0 < Real.sqrt 195075 / Real.sqrt 196608 := by positivity
  intro heq
  rw [show ((1*1 : ℕ) : ℝ) = 1 by norm_num] at heq
  rw [div_one, div_one] at heq
  nlinarith

/-- Claim C5 (amended): the similarity metric percentage equals
`(1 - average of per-pixel distance / sqrt(3*256^2)) * 100` (the code's
normalisation constant uses 256, not 255), and a mosaic identical in
every pixel to the resized source scores exactly 100. -/
theorem metric_percent_spec (W H : ℕ) (o m : ℕ → ℕ → RGB)
    (hW : 1 ≤ W) (hH : 1 ≤ H) :
    metricPercent W H o m
      = (1 - (∑ x ∈ Finset.range W, ∑ y ∈ Finset.range H,
          pixDist (o x y) (m x y) / Real.sqrt (3 * 256 * 256)) / ((W * H : ℕ) : ℝ))
        * 100 ∧
    ((∀ x y, x < W → y < H → o x y = m x y) → metricPercent W H o m = 100) := by
  constructor
  · unfold metricPercent metricAvg
    congr 3
    apply Finset.sum_congr rfl
    intro x _
    apply Finset.sum_congr rfl
    intro y _
    by_cases h0 : pixDist (o x y) (m x y) = 0
    · rw [if_pos h0, h0, zero_div]
    · rw [if_neg h0]
  · intro hsame
    unfold metricPercent metricAvg
    rw [Finset.sum_eq_zero, zero_div]
    · norm_num
    · intro x hx
      rw [Finset.sum_eq_zero]
      intro y hy
      rw [Finset.mem_range] at hx hy
      rw [hsame x y hx hy, pixDist_self, if_pos rfl]

/-- Witness for C5 (amended) on a concrete identical pair of 1 x 1
images. -/
theorem metric_percent_spec_witness :
    metricPercent 1 1 (fun _ _ => ((3:ℤ), 4, 5)) (fun _ _ => ((3:ℤ), 4, 5)) = 100 :=
  (metric_percent_spec 1 1 (fun _ _ => ((3:ℤ), 4, 5)) (fun _ _ => ((3:ℤ), 4, 5))
    (by norm_num) (by norm_num)).2 (fun _ _ _ _ => rfl)

/-! ## Layout arithmetic and the `mosaic` control flow
(`checkFill` lines 151-166, `mosaic` lines 439-591)

Python float arithmetic on these small quantities is modelled exactly
with rationals.  `DPI = 300` and `INCHES2MM = 25.4 = 127/5` are the
constants of the file. -/

/-- The `DPI` constant (line 57). -/
def mosaicDPI : ℚ := 300

/-- The `INCHES2MM` constant (line 60): `25.4`. -/
def mosaicINCH : ℚ := 127/5

/-- The default PIL `Image.MAX_IMAGE_PIXELS` remembered in
`MY_MAX_IMAGE_PIXELS` (line 91). -/
def maxImagePixels : ℤ := 178956970

/-- `checkFill(pagei, imagei, dpi)` (lines 151-166): millimetre border on
each side plus one extra odd millimetre, both converted to pixels. -/
def checkFill (pagei imagei : ℤ) (dpi : ℚ) : ℤ × ℤ :=
  let idiff := pagei - imagei
  let ib := pyint ((idiff : ℚ) / 2)
  let ie : ℤ := if idiff % 2 ≠ 0 then 1 else 0
  (pyround ((ib : ℚ) * dpi / mosaicINCH), pyround ((ie : ℚ) * dpi / mosaicINCH))

/-- Grid dimensions `(XD, YD)` derived in `mosaic` (lines 446-479) from
the canvas, margin, tile size and the source image's aspect. -/
def gridXY (canvasW canvasH margin tilemm : ℤ) (origX origY : ℕ) : ℤ × ℤ :=
  let outX : ℚ := ((canvasW - 2*margin : ℤ) : ℚ) / (tilemm : ℚ)
  let outY : ℚ := ((canvasH - 2*margin : ℤ) : ℚ) / (tilemm : ℚ)
  let origRat : ℚ := (origX : ℚ) / (origY : ℚ)
  if origRat < outX / outY then (pyint (outY * origRat), pyint outY)
  else (pyint outX, pyint (outX / origRat))

/-- The tile pixel size (lines 488-497): `THUMB_SIZE = 840` capped by the
DPI-derived target size. -/
def tilesizeOf (tilemm : ℤ) : ℤ :=
  let target := pyround (mosaicDPI * (tilemm : ℚ) / mosaicINCH)
  if target < 840 then target else 840

/-- The `MAX_IMAGE_PIXELS` adjustment (lines 520-532), returning the
mosaic pixel dimensions `(bigwidth, bigheight)`. -/
def maxAdjust (tilesize XD YD : ℤ) : ℤ × ℤ :=
  let bw := tilesize * XD
  let bh := tilesize * YD
  if bw > maxImagePixels ∨ bh > maxImagePixels then
    let nt := if bw > bh then pyint ((maxImagePixels : ℚ) / (XD : ℚ))
              else pyint ((maxImagePixels : ℚ) / (YD : ℚ))
    (nt * XD, nt * YD)
  else (bw, bh)

/-- Pixels to physical millimetres (lines 549-550):
`int(big * INCHES2MM / DPI)`. -/
def pxToMM (b : ℤ) : ℤ := pyint ((b : ℚ) * mosaicINCH / mosaicDPI)

/-- The final physical size of one axis (lines 559-573): add the border
fill and extra pixels to the mosaic pixels and convert back to
millimetres with `int(round(actual * INCHES2MM / DPI))`. -/
def finalMM (pagei : ℤ) (b : ℤ) : ℤ :=
  let fill := checkFill pagei (pxToMM b) mosaicDPI
  pyround (((b + fill.1 * 2 + fill.2 : ℤ) : ℚ) * mosaicINCH / mosaicDPI)

/-- The control flow of `mosaic` (lines 439-591) up to and including the
placement call: the `assert canvas[0] < canvas[1]` (line 445), the
catalog-size check (lines 509-511, an early `return` producing no
placement and no output), the physical-size asserts (lines 555-556) and
finally `placeSpiral` with the origin cell of lines 584-589.  `inimg`
stands for the PIL-resized input image (line 486, external). -/
noncomputable def mosaicModel (inimg : Img) (origX origY : ℕ) (rotated : Bool)
    (table : List CatalogEntry) (tilemm canvasW canvasH margin : ℤ)
    (dim : ℕ) (allowDups : Bool) :
    Option ((ℤ × ℤ → Option (ℤ × ℝ)) × ℕ) :=
  if ¬(canvasW < canvasH) then none
  else
    let XD := (gridXY canvasW canvasH margin tilemm origX origY).1
    let YD := (gridXY canvasW canvasH margin tilemm origX origY).2
    if XD * YD > (table.length : ℤ) ∧ allowDups = false then none
    else
      let bwh := maxAdjust (tilesizeOf tilemm) XD YD
      if ¬(pxToMM bwh.1 ≤ canvasW) then none
      else if ¬(pxToMM bwh.2 ≤ canvasH) then none
      else
        placeSpiral inimg (YD - 1) (if rotated then XD - 1 else 0)
          XD.toNat YD.toNat table dim allowDups

/-- Claim C4: with duplicates disallowed, whenever the derived grid cell
count exceeds the catalog size the engine stops before any placement: no
Placement is created, no tile is marked used, no output image is
produced (the model returns `none` without invoking the scheduler). -/
theorem mosaic_grid_too_big (inimg : Img) (origX origY : ℕ) (rotated : Bool)
    (table : List CatalogEntry) (tilemm canvasW canvasH margin : ℤ) (dim : ℕ)
    (hgrid : (gridXY canvasW canvasH margin tilemm origX origY).1
      * (gridXY canvasW canvasH margin tilemm origX origY).2
      > (table.length : ℤ)) :
    mosaicModel inimg origX origY rotated table tilemm canvasW canvasH margin
      dim false = none := by
  unfold mosaicModel
  by_cases h1 : canvasW < canvasH
  · rw [if_neg (not_not_intro h1)]
    exact if_pos ⟨hgrid, rfl⟩
  · rw [if_pos h1]

/-- A ten-entry colour table. -/
def tableTen : List CatalogEntry := List.replicate 10 ("t", ([0], [0], [0]))

/-- Witness for C4: the spec's scenario — duplicates disallowed, catalog
size 10, and inputs deriving a 4 x 4 grid (16 cells). -/
theorem mosaic_grid_too_big_witness :
    mosaicModel imgZero 100 100 false tableTen 10 40 41 0 1 false = none :=
  mosaic_grid_too_big imgZero 100 100 false tableTen 10 40 41 0 1 (by
    have h : gridXY 40 41 0 10 100 100 = (4, 4) := by
      unfold gridXY pyint
      norm_num
    rw [h]
    norm_num [tableTen])

theorem checkFill_le (pagei imagei : ℤ) (hle : imagei ≤ pagei) :
    2 * ((checkFill pagei imagei mosaicDPI).1 : ℚ)
      + ((checkFill pagei imagei mosaicDPI).2 : ℚ)
      ≤ ((pagei : ℚ) - (imagei : ℚ)) * (1500/127) + 3/2 := by
  unfold checkFill mosaicDPI mosaicINCH
  simp only
  have hd0 : (0:ℚ) ≤ ((pagei - imagei : ℤ) : ℚ) := by
    have h0 : (0:ℤ) ≤ pagei - imagei := by omega
    exact_mod_cast h0
  rw [pyint_of_nonneg _ (by positivity)]
  set ib : ℤ := ⌊((pagei - imagei : ℤ) : ℚ) / 2⌋ with hib
  set ie : ℤ := if (pagei - imagei) % 2 ≠ 0 then 1 else 0 with hie
  have hb1 : (ib : ℚ) ≤ ((pagei : ℚ) - (imagei : ℚ)) / 2 := by
    have h := Int.floor_le (((pagei - imagei : ℤ) : ℚ) / 2)
    rw [← hib] at h
    push_cast at h
    linarith
  have hb2 : ((pagei : ℚ) - (imagei : ℚ)) / 2 < (ib : ℚ) + 1 := by
    have h := Int.lt_floor_add_one (((pagei - imagei : ℤ) : ℚ) / 2)
    rw [← hib] at h
    push_cast at h
    linarith
  have hibe : 2 * ib + ie = pagei - imagei := by
    have hz1 : 2 * ib ≤ pagei - imagei := by
      have h : (2 * (ib:ℚ)) ≤ (pagei : ℚ) - (imagei : ℚ) := by linarith
      exact_mod_cast h
    have hz2 : pagei - imagei < 2 * ib + 2 := by
      have h : (pagei : ℚ) - (imagei : ℚ) < 2 * (ib:ℚ) + 2 := by linarith
      exact_mod_cast h
    rw [hie]
    split <;> omega
  have hf1 := pyround_le ((ib : ℚ) * 300 / (127/5))
  have hf2 := pyround_le ((ie : ℚ) * 300 / (127/5))
  have hcast : 2 * (ib:ℚ) + (ie:ℚ) = (pagei : ℚ) - (imagei : ℚ) := by
    have h : ((2 * ib + ie : ℤ) : ℚ) = ((pagei - imagei : ℤ) : ℚ) := by
      exact_mod_cast congrArg (fun z : ℤ => (z : ℚ)) hibe
    push_cast at h
    linarith
  linarith [hf1, hf2]

theorem finalMM_le (C B : ℤ) (hB : 0 ≤ B) (hassert : pxToMM B ≤ C) :
    finalMM C B ≤ C + 1 := by
  have hBq : (0:ℚ) ≤ (B:ℚ) := by exact_mod_cast hB
  have himm1 : ((pxToMM B : ℤ) : ℚ) ≤ (B:ℚ) * (127/1500) := by
    unfold pxToMM mosaicINCH mosaicDPI
    rw [pyint_of_nonneg _ (by positivity)]
    have h := Int.floor_le ((B:ℚ) * (127/5) / 300)
    calc ((⌊(B:ℚ) * (127/5) / 300⌋ : ℤ) : ℚ) ≤ (B:ℚ) * (127/5) / 300 := h
    _ = (B:ℚ) * (127/1500) := by ring
  have himm2 : (B:ℚ) * (127/1500) < ((pxToMM B : ℤ) : ℚ) + 1 := by
    unfold pxToMM mosaicINCH mosaicDPI
    rw [pyint_of_nonneg _ (by positivity)]
    have h := Int.lt_floor_add_one ((B:ℚ) * (127/5) / 300)
    calc (B:ℚ) * (127/1500) = (B:ℚ) * (127/5) / 300 := by ring
    _ < ((⌊(B:ℚ) * (127/5) / 300⌋ : ℤ) : ℚ) + 1 := h
  have hfill := checkFill_le C (pxToMM B) hassert
  set f1 : ℤ := (checkFill C (pxToMM B) mosaicDPI).1 with hf1def
  set f2 : ℤ := (checkFill C (pxToMM B) mosaicDPI).2 with hf2def
  have hfinal : finalMM C B
      = pyround (((B + f1 * 2 + f2 : ℤ) : ℚ) * mosaicINCH / mosaicDPI) := rfl
  have harg : ((B + f1 * 2 + f2 : ℤ) : ℚ) * mosaicINCH / mosaicDPI
      = ((B:ℚ) + 2*(f1:ℚ) + (f2:ℚ)) * (127/1500) := by
    unfold mosaicINCH mosaicDPI
    push_cast
    ring
  have hround := pyround_le (((B:ℚ) + 2*(f1:ℚ) + (f2:ℚ)) * (127/1500))
  rw [hfinal, harg]
  have hassertq : ((pxToMM B : ℤ) : ℚ) ≤ (C : ℚ) := by exact_mod_cast hassert
  have hlt : ((pyround (((B:ℚ) + 2*(f1:ℚ) + (f2:ℚ)) * (127/1500)) : ℤ) : ℚ)
      < (C : ℚ) + 2 := by
    nlinarith [hround, hfill, himm1, himm2]
  have hfin : pyround (((B:ℚ) + 2*(f1:ℚ) + (f2:ℚ)) * (127/1500)) < C + 2 := by
    exact_mod_cast hlt
  omega

/-- Claim C6 (amended): for all layout inputs with `margin < canvas/2`
whose run passes the physical-size asserts of lines 555-556, the final
physical canvas size (pixels of mosaic plus margin fill plus any extra
odd-millimetre pixel, converted back to millimetres via the DPI) exceeds
the requested canvas size by at most one millimetre in each axis.  It can
genuinely exceed it by that millimetre (see the counterexample), so the
claimed invariant `final <= requested` does not hold as stated. -/
theorem layout_roundtrip (canvasW canvasH margin tilemm : ℤ) (origX origY : ℕ)
    (hm0 : 0 ≤ margin) (hm1 : 2*margin < canvasW) (hm2 : 2*margin < canvasH)
    (hbw : 0 ≤ (maxAdjust (tilesizeOf tilemm)
      (gridXY canvasW canvasH margin tilemm origX origY).1
      (gridXY canvasW canvasH margin tilemm origX origY).2).1)
    (hbh : 0 ≤ (maxAdjust (tilesizeOf tilemm)
      (gridXY canvasW canvasH margin tilemm origX origY).1
      (gridXY canvasW canvasH margin tilemm origX origY).2).2)
    (hax : pxToMM (maxAdjust (tilesizeOf tilemm)
      (gridXY canvasW canvasH margin tilemm origX origY).1
      (gridXY canvasW canvasH margin tilemm origX origY).2).1 ≤ canvasW)
    (hay : pxToMM (maxAdjust (tilesizeOf tilemm)
      (gridXY canvasW canvasH margin tilemm origX origY).1
      (gridXY canvasW canvasH margin tilemm origX origY).2).2 ≤ canvasH) :
    finalMM canvasW (maxAdjust (tilesizeOf tilemm)
      (gridXY canvasW canvasH margin tilemm origX origY).1
      (gridXY canvasW canvasH margin tilemm origX origY).2).1 ≤ canvasW + 1 ∧
    finalMM canvasH (maxAdjust (tilesizeOf tilemm)
      (gridXY canvasW canvasH margin tilemm origX origY).1
      (gridXY canvasW canvasH margin tilemm origX origY).2).2 ≤ canvasH + 1 :=
  ⟨finalMM_le canvasW _ hbw hax, finalMM_le canvasH _ hbh hay⟩

/-- Counterexample for C6 as stated: canvas 599 x 841 mm, margin 47 mm,
tile 10 mm, square source.  The grid is 50 x 50, the tile size 118 px,
the mosaic 5900 x 5900 px = 499 mm (the asserts pass), yet after margin
fill the final physical width is 600 mm > 599 mm. -/
theorem layout_roundtrip_cx :
    gridXY 599 841 47 10 100 100 = (50, 50) ∧
    tilesizeOf 10 = 118 ∧
    maxAdjust 118 50 50 = (5900, 5900) ∧
    pxToMM 5900 = 499 ∧ (499:ℤ) ≤ 599 ∧ (0:ℤ) ≤ 47 ∧ (2*47:ℤ) < 599 ∧
    finalMM 599 5900 = 600 ∧ ¬((600:ℤ) ≤ 599) := by
  have hgrid : gridXY 599 841 47 10 100 100 = (50, 50) := by
    unfold gridXY pyint
    norm_num
  have hts : tilesizeOf 10 = 118 := by
    unfold tilesizeOf pyround mosaicDPI mosaicINCH
    norm_num
  have hmax : maxAdjust 118 50 50 = (5900, 5900) := by
    unfold maxAdjust maxImagePixels
    norm_num
  have hpx : pxToMM 5900 = 499 := by
    unfold pxToMM pyint mosaicINCH mosaicDPI
    norm_num
  have hcf : checkFill 599 499 mosaicDPI = (591, 0) := by
    unfold checkFill pyint pyround mosaicDPI mosaicINCH
    norm_num
  have hfin : finalMM 599 5900 = 600 := by
    unfold finalMM
    rw [hpx, hcf]
    unfold pyround mosaicINCH mosaicDPI
    norm_num
  exact ⟨hgrid, hts, hmax, hpx, by norm_num, by norm_num, by norm_num, hfin,
    by norm_num⟩

/-- Witness for C6 (amended) at the counterexample's inputs: the final
size stays within one millimetre of the requested canvas. -/
theorem layout_roundtrip_witness :
    finalMM 599 (maxAdjust (tilesizeOf 10) (gridXY 599 841 47 10 100 100).1
      (gridXY 599 841 47 10 100 100).2).1 ≤ 599 + 1 ∧
    finalMM 841 (maxAdjust (tilesizeOf 10) (gridXY 599 841 47 10 100 100).1
      (gridXY 599 841 47 10 100 100).2).2 ≤ 841 + 1 := by
  have hgrid : gridXY 599 841 47 10 100 100 = (50, 50) := by
    unfold gridXY pyint
    norm_num
  have hts : tilesizeOf 10 = 118 := by
    unfold tilesizeOf pyround mosaicDPI mosaicINCH
    norm_num
  have hpx : pxToMM 5900 = 499 := by
    unfold pxToMM pyint mosaicINCH mosaicDPI
    norm_num
  apply layout_roundtrip 599 841 47 10 100 100 (by norm_num) (by norm_num)
    (by norm_num)
  · rw [hgrid, hts]
    norm_num [maxAdjust, maxImagePixels]
  · rw [hgrid, hts]
    norm_num [maxAdjust, maxImagePixels]
  · rw [hgrid, hts]
    have : maxAdjust 118 50 50 = (5900, 5900) := by
      unfold maxAdjust maxImagePixels
      norm_num
    rw [this]
    simp only
    rw [hpx]
    norm_num
  · rw [hgrid, hts]
    have : maxAdjust 118 50 50 = (5900, 5900) := by
      unfold maxAdjust maxImagePixels
      norm_num
    rw [this]
    simp only
    rw [hpx]
    norm_num
